import Mathlib

/-!
Verification development for the multi-stream synchronizer core.

The Rust source is shallowly embedded: `std::time::Duration` values are
modelled as nanosecond counts in `Nat`.  Rust `saturating_sub` on durations
is `Nat` truncated subtraction; `saturating_add` is plain `Nat` addition
(the `Duration` upper bound is astronomically large and plays no role in the
matching logic).  `VecDeque` becomes `List` (head = front, last = back) and
`IndexMap` becomes an insertion-ordered association list.  Fallible paths
return `Except`; the lone `unwrap` inside `State::try_match` is modelled by
an explicit `Except.error` case.
-/

namespace MSS

/-- The Rust trait `Timestamped`: the core only consumes `timestamp()`. -/
class Timestamped (T : Type) where
  timestamp : T → Nat

export Timestamped (timestamp)

instance : Timestamped Nat := ⟨id⟩

/-- `Buffer` from `src/state.rs` (also the shape of `src/buffer.rs`):
a queue of messages plus the greatest timestamp ever admitted. -/
structure Buffer (T : Type) where
  buffer : List T
  last_ts : Option Nat
deriving DecidableEq, Repr

/-- The feedback message type (`Feedback<K>` in `src/types.rs`). -/
structure Feedback (K : Type) where
  accepted_max_timestamp : Option Nat
  commit_timestamp : Option Nat
  accepted_keys : List K
deriving DecidableEq, Repr

/-- `State<K, T>` from `src/state.rs`.  The watch sender is modelled by a
boolean recording whether the sender is still present. -/
structure State (K T : Type) where
  buffers : List (K × Buffer T)
  commit_ts : Option Nat
  buf_size : Nat
  window_size : Nat
  feedback_tx : Bool
deriving DecidableEq, Repr

/-- Accumulator loop of Rust `Iterator::min_by`: the running minimum is
replaced only when the new element compares strictly less, so the first of
several equal minima wins. -/
def minByAux (cmp : α → α → Ordering) (acc : α) : List α → α
  | [] => acc
  | x :: xs => minByAux cmp (if cmp x acc = Ordering.lt then x else acc) xs

/-- Rust `Iterator::min_by`. -/
def minBy (cmp : α → α → Ordering) : List α → Option α
  | [] => none
  | x :: xs => some (minByAux cmp x xs)

/-- The comparator used by `State::sup_timestamp` and
`State::min_timestamp`: `None` compares below `Some`. -/
def cmpFwdOpt : Option Nat → Option Nat → Ordering
  | some l, some r => compare l r
  | some _, none => Ordering.gt
  | none, some _ => Ordering.lt
  | none, none => Ordering.eq

/-- The comparator used by `State::inf_timestamp`: `Some` values compare
reversed, `None` still compares below `Some`. -/
def cmpRevOpt : Option Nat → Option Nat → Ordering
  | some l, some r => (compare l r).swap
  | some _, none => Ordering.gt
  | none, some _ => Ordering.lt
  | none, none => Ordering.eq

/-- Timestamp of the buffer front, `buffer.buffer.front().map(timestamp)`. -/
def Buffer.frontTs [Timestamped T] (b : Buffer T) : Option Nat :=
  b.buffer.head?.map timestamp

/-- Timestamp of the buffer back, `buffer.buffer.back().map(timestamp)`. -/
def Buffer.backTs [Timestamped T] (b : Buffer T) : Option Nat :=
  b.buffer.getLast?.map timestamp

/-- `State::sup_timestamp`: min_by over the per-buffer back timestamps. -/
def State.sup_timestamp [Timestamped T] (s : State K T) : Option Nat :=
  (minBy cmpFwdOpt (s.buffers.map (fun kb => kb.2.backTs))).join

/-- `State::inf_timestamp`: min_by with reversed comparison over the
per-buffer front timestamps. -/
def State.inf_timestamp [Timestamped T] (s : State K T) : Option Nat :=
  (minBy cmpRevOpt (s.buffers.map (fun kb => kb.2.frontTs))).join

/-- `State::min_timestamp`: min_by over the per-buffer front timestamps. -/
def State.min_timestamp [Timestamped T] (s : State K T) : Option Nat :=
  (minBy cmpFwdOpt (s.buffers.map (fun kb => kb.2.frontTs))).join

/-- `State::is_full`. -/
def State.is_full (s : State K T) : Bool :=
  s.buffers.all (fun kb => s.buf_size ≤ kb.2.buffer.length)

/-- `State::is_ready`. -/
def State.is_ready (s : State K T) : Bool :=
  s.buffers.all (fun kb => 2 ≤ kb.2.buffer.length)

/-- `State::is_empty`. -/
def State.is_empty (s : State K T) : Bool :=
  s.buffers.all (fun kb => kb.2.buffer.isEmpty)

/-- One buffer step of `State::drop_min`: pop the front when its timestamp
equals the global minimum. -/
def dropFrontIfMin [Timestamped T] (m : Nat) (b : Buffer T) : Buffer T :=
  match b.buffer with
  | [] => b
  | x :: rest => if timestamp x = m then { b with buffer := rest } else b

/-- `State::drop_min`. -/
def State.drop_min [Timestamped T] (s : State K T) : Bool × State K T :=
  match s.min_timestamp with
  | none => (false, s)
  | some m =>
    (true, { s with buffers := s.buffers.map (fun kb => (kb.1, dropFrontIfMin m kb.2)) })

/-- `Buffer::try_push` from `src/state.rs` (boolean result). -/
def Buffer.try_push [Timestamped T] (b : Buffer T) (item : T) : Bool × Buffer T :=
  match b.last_ts with
  | some l =>
    if timestamp item ≤ l then (false, b)
    else (true, { buffer := b.buffer ++ [item], last_ts := some (timestamp item) })
  | none => (true, { buffer := b.buffer ++ [item], last_ts := some (timestamp item) })

/-- `IndexMap::get_mut` followed by `try_push`: locate the first entry with
the given key, push into it in place; `none` when the key is absent. -/
def pushIntoBuffers [DecidableEq K] [Timestamped T] (item : T) (key : K) :
    List (K × Buffer T) → Option (Bool × List (K × Buffer T))
  | [] => none
  | kb :: rest =>
    if kb.1 = key then
      some ((kb.2.try_push item).1, (kb.1, (kb.2.try_push item).2) :: rest)
    else
      (pushIntoBuffers item key rest).map (fun r => (r.1, kb :: r.2))

/-- Body of `State::push` after the watermark check. -/
def State.pushAux [DecidableEq K] [Timestamped T] (s : State K T) (key : K) (item : T) :
    Bool × State K T :=
  match pushIntoBuffers item key s.buffers with
  | none => (false, s)
  | some r => (r.1, { s with buffers := r.2 })

/-- `State::push`. -/
def State.push [DecidableEq K] [Timestamped T] (s : State K T) (key : K) (item : T) :
    Bool × State K T :=
  match s.commit_ts with
  | some c => if timestamp item ≤ c then (false, s) else s.pushAux key item
  | none => s.pushAux key item

/-- `duration_diff` from `src/state.rs`. -/
def durationDiff (lhs rhs : Nat) : Nat :=
  if rhs ≤ lhs then lhs - rhs else rhs - lhs

/-- Membership in the `drop_range` of `State::try_match`: upper bound is
`Included(commit_ts)` when `commit_ts > window_start`, otherwise
`Excluded(window_start)`. -/
def inDropRange (commit_ts : Option Nat) (window_start : Nat) (ts : Nat) : Bool :=
  match commit_ts with
  | some c => if window_start < c then ts ≤ c else ts < window_start
  | none => ts < window_start

/-- First loop of the per-key closure of `State::try_match`: pop fronts
while they fall in the drop range; stop at the first survivor.  A survivor
above `window_end` has already been popped and is discarded together with
the candidacy of this key. -/
def findCandidate [Timestamped T] (drop : Nat → Bool) (window_end : Nat) :
    List T → Option T × List T
  | [] => (none, [])
  | x :: rest =>
    if drop (timestamp x) then findCandidate drop window_end rest
    else if window_end < timestamp x then (none, rest)
    else (some x, rest)

/-- Second loop of the per-key closure of `State::try_match`: greedily pop
while the next front strictly improves the distance to `inf`.  When the
buffer runs out, the `?` on `front()` aborts the closure and the candidate
is lost. -/
def improve [Timestamped T] (inf window_end : Nat) (cand : T) (curr_diff : Nat) :
    List T → Option T × List T
  | [] => (none, [])
  | x :: rest =>
    if window_end < timestamp x then (some cand, x :: rest)
    else if durationDiff inf (timestamp x) < curr_diff then
      improve inf window_end x (durationDiff inf (timestamp x)) rest
    else (some cand, x :: rest)

/-- The whole per-key closure of `State::try_match`. -/
def processBuffer [Timestamped T] (drop : Nat → Bool) (inf window_end : Nat)
    (b : Buffer T) : Option T × Buffer T :=
  match findCandidate drop window_end b.buffer with
  | (none, rest) => (none, { b with buffer := rest })
  | (some cand, rest) =>
    ((improve inf window_end cand (durationDiff inf (timestamp cand)) rest).1,
     { b with buffer := (improve inf window_end cand (durationDiff inf (timestamp cand)) rest).2 })

/-- `items.values().map(timestamp).min()` over a collected group. -/
def minTsOf [Timestamped T] (items : List (K × T)) : Option Nat :=
  minBy compare (items.map (fun kt => timestamp kt.2))

/-- `State::try_match`.  `Except.error ()` is the `unwrap` on the group
minimum firing on an empty collection. -/
def State.try_match [Timestamped T] (s : State K T) :
    Except Unit (Option (List (K × T)) × State K T) :=
  match s.inf_timestamp, s.sup_timestamp with
  | some inf, some sup =>
    if inf + s.window_size ≤ sup then
      let window_start := inf - s.window_size
      let window_end := inf + s.window_size
      let drop := inDropRange s.commit_ts window_start
      let results := s.buffers.map (fun kb => (kb.1, processBuffer drop inf window_end kb.2))
      let items := results.filterMap (fun kr => kr.2.1.map (fun c => (kr.1, c)))
      match minTsOf items with
      | none => Except.error ()
      | some m =>
        Except.ok (some items,
          { s with buffers := results.map (fun kr => (kr.1, kr.2.2)), commit_ts := some m })
    else Except.ok (none, s)
  | _, _ => Except.ok (none, s)

/-- The feedback message built by `State::update_feedback`. -/
def State.feedbackMsg (s : State K T) : Feedback K :=
  { accepted_max_timestamp := none
    commit_timestamp := s.commit_ts
    accepted_keys :=
      (s.buffers.filter (fun kb => kb.2.buffer.length < s.buf_size)).map (fun kb => kb.1) }

/-- `State::update_feedback`.  `send_ok` is the environment oracle telling
whether the watch receiver is still alive; on a send error the sender is
cleared. -/
def State.update_feedback (s : State K T) (send_ok : Bool) :
    Option (Feedback K) × State K T :=
  if s.feedback_tx then
    (some s.feedbackMsg, if send_ok then s else { s with feedback_tx := false })
  else (none, s)

/-- The `Config` consumed by `sync` (`window_size`, `start_time`,
`buf_size`). -/
structure Config where
  window_size : Nat
  start_time : Option Nat
  buf_size : Nat
deriving DecidableEq, Repr

/-- Key deduplication performed by collecting `keys` into an `IndexMap`:
first occurrence fixes the position. -/
def dedupKeys [DecidableEq K] (keys : List K) : List K :=
  keys.foldl (fun acc k => if k ∈ acc then acc else acc ++ [k]) []

/-- The constructor `sync` from `src/sync.rs`, returning the initial state
and the initial value of the feedback watch channel. -/
def sync (T : Type) [DecidableEq K] (keys : List K) (config : Config) :
    Except Unit (State K T × Feedback K) :=
  if 2 ≤ config.buf_size then
    if 0 < config.window_size then
      let buffers : List (K × Buffer T) := (dedupKeys keys).map (fun k => (k, ⟨[], none⟩))
      if buffers.isEmpty then Except.error ()
      else
        Except.ok
          ({ buffers := buffers, commit_ts := config.start_time,
             buf_size := config.buf_size, window_size := config.window_size,
             feedback_tx := true },
           { accepted_max_timestamp := none, commit_timestamp := none,
             accepted_keys := buffers.map (fun kb => kb.1) })
    else Except.error ()
  else Except.error ()


/-- Total number of buffered messages. -/
def State.msgCount (s : State K T) : Nat :=
  (s.buffers.map (fun kb => kb.2.buffer.length)).sum

/-- Outcome of one iteration of the drain loop in `poll`
(`src/sync.rs`, input-depleted branch). -/
inductive DrainOut (K T : Type) where
  | finished
  | emit (g : List (K × T)) (next : State K T)
  | again (next : State K T)
deriving DecidableEq, Repr

/-- One iteration of the drain loop: finish when all buffers are empty,
emit when the matcher succeeds, otherwise force progress with `drop_min`
and go around again. -/
def drainStep [Timestamped T] (s : State K T) : Except Unit (DrainOut K T) :=
  if s.is_empty then Except.ok DrainOut.finished
  else
    match s.try_match with
    | Except.error e => Except.error e
    | Except.ok (some g, s2) => Except.ok (DrainOut.emit g s2)
    | Except.ok (none, s2) => Except.ok (DrainOut.again s2.drop_min.2)

/-- Iterate the drain loop up to `n` times, stopping at the first
non-`again` outcome. -/
def iterDrain [Timestamped T] : Nat → State K T → Except Unit (DrainOut K T)
  | 0, s => Except.ok (DrainOut.again s)
  | n + 1, s =>
    match drainStep s with
    | Except.ok (DrainOut.again s2) => iterDrain n s2
    | r => r

/-- The four mutating operations the driver loop performs on the state. -/
inductive SyncOp (K T : Type) where
  | push (key : K) (item : T)
  | tryMatch
  | dropMin
  | feedback (send_ok : Bool)

/-- Apply one operation; `tryMatch` also reports the emitted group.  The
`error` case of `try_match` aborts the Rust process; it is mapped to a
no-op here and separately proven unreachable on well-formed states. -/
def SyncOp.apply [DecidableEq K] [Timestamped T] :
    SyncOp K T → State K T → State K T × Option (List (K × T))
  | SyncOp.push k t, s => ((s.push k t).2, none)
  | SyncOp.tryMatch, s =>
    match s.try_match with
    | Except.ok r => (r.2, r.1)
    | Except.error _ => (s, none)
  | SyncOp.dropMin, s => (s.drop_min.2, none)
  | SyncOp.feedback ok, s => ((s.update_feedback ok).2, none)

/-- Run a sequence of operations, collecting the emitted groups in order. -/
def runSyncOps [DecidableEq K] [Timestamped T] :
    List (SyncOp K T) → State K T → State K T × List (List (K × T))
  | [], s => (s, [])
  | op :: rest, s =>
    match (op.apply s).2 with
    | some g => ((runSyncOps rest (op.apply s).1).1, g :: (runSyncOps rest (op.apply s).1).2)
    | none => runSyncOps rest (op.apply s).1

/-- `Buffer::try_push` from `src/buffer.rs`: same admission rule, but the
rejected item is handed back through `Err`. -/
def Buffer.try_push_res [Timestamped T] (b : Buffer T) (item : T) : Except T (Buffer T) :=
  match b.last_ts with
  | some l =>
    if timestamp item ≤ l then Except.error item
    else Except.ok { buffer := b.buffer ++ [item], last_ts := some (timestamp item) }
  | none => Except.ok { buffer := b.buffer ++ [item], last_ts := some (timestamp item) }

/-- `Buffer::pop_front` from `src/buffer.rs`. -/
def Buffer.pop_front (b : Buffer T) : Option T × Buffer T :=
  match b.buffer with
  | [] => (none, b)
  | x :: rest => (some x, { b with buffer := rest })

/-- Loop body of `Buffer::drop_before`: remove the longest strict prefix
of timestamps below `ts`, counting removals. -/
def dropBeforeList [Timestamped T] (ts : Nat) : List T → Nat × List T
  | [] => (0, [])
  | x :: rest =>
    if ts ≤ timestamp x then (0, x :: rest)
    else ((dropBeforeList ts rest).1 + 1, (dropBeforeList ts rest).2)

/-- `Buffer::drop_before` from `src/buffer.rs`. -/
def Buffer.drop_before [Timestamped T] (b : Buffer T) (ts : Nat) : Nat × Buffer T :=
  ((dropBeforeList ts b.buffer).1, { b with buffer := (dropBeforeList ts b.buffer).2 })

/-- The operations a client may interleave on one buffer. -/
inductive BufOp (T : Type) where
  | push (item : T)
  | pop
  | dropBefore (ts : Nat)

/-- Apply one buffer operation (a rejected push leaves the buffer as is). -/
def BufOp.apply [Timestamped T] : BufOp T → Buffer T → Buffer T
  | BufOp.push item, b =>
    match b.try_push_res item with
    | Except.ok b2 => b2
    | Except.error _ => b
  | BufOp.pop, b => b.pop_front.2
  | BufOp.dropBefore ts, b => (b.drop_before ts).2

/-- Run buffer operations, recording the timestamps of admitted pushes in
chronological order. -/
def runBufTrace [Timestamped T] : List (BufOp T) → Buffer T → Buffer T × List Nat
  | [], b => (b, [])
  | op :: rest, b =>
    match op with
    | BufOp.push item =>
      match b.try_push_res item with
      | Except.ok b2 =>
        ((runBufTrace rest b2).1, timestamp item :: (runBufTrace rest b2).2)
      | Except.error _ => runBufTrace rest b
    | BufOp.pop => runBufTrace rest b.pop_front.2
    | BufOp.dropBefore ts => runBufTrace rest (b.drop_before ts).2

/-- The watermark guard as a decidable proposition. -/
def commitLt (commit : Option Nat) (t : Nat) : Prop :=
  match commit with
  | some c => c < t
  | none => True

instance (commit : Option Nat) (t : Nat) : Decidable (commitLt commit t) :=
  match commit with
  | some c => inferInstanceAs (Decidable (c < t))
  | none => inferInstanceAs (Decidable True)

/-- Bound by the recorded `last_ts`, false when `last_ts` is unset. -/
def leOfLast (l : Option Nat) (t : Nat) : Prop :=
  match l with
  | some v => t ≤ v
  | none => False

instance (l : Option Nat) (t : Nat) : Decidable (leOfLast l t) :=
  match l with
  | some v => inferInstanceAs (Decidable (t ≤ v))
  | none => inferInstanceAs (Decidable False)

/-- Per-buffer well-formedness: strictly increasing timestamps, every
message above the watermark, every message bounded by `last_ts`. -/
def BufferWF [Timestamped T] (commit : Option Nat) (b : Buffer T) : Prop :=
  List.Pairwise (fun a c => timestamp a < timestamp c) b.buffer ∧
  (∀ t ∈ b.buffer, commitLt commit (timestamp t)) ∧
  (∀ t ∈ b.buffer, leOfLast b.last_ts (timestamp t))

instance [Timestamped T] (commit : Option Nat) (b : Buffer T) :
    Decidable (BufferWF commit b) :=
  inferInstanceAs (Decidable (_ ∧ _ ∧ _))

/-- State well-formedness: every buffer is well formed w.r.t. the current
watermark.  It holds for the state built by `sync` and is preserved by
every operation (proved below). -/
def StateWF [Timestamped T] (s : State K T) : Prop :=
  ∀ kb ∈ s.buffers, BufferWF s.commit_ts kb.2

instance [Timestamped T] (s : State K T) : Decidable (StateWF s) :=
  inferInstanceAs (Decidable (∀ kb ∈ s.buffers, BufferWF s.commit_ts kb.2))

/-- Concrete two-key state whose second buffer starts below the window and
jumps past its end: buffer 0 holds 100 and 200, buffer 1 holds 50 and 200,
window 10. -/
def stateC1 : State Nat Nat :=
  { buffers := [(0, ⟨[100, 200], some 200⟩), (1, ⟨[50, 200], some 200⟩)],
    commit_ts := none, buf_size := 2, window_size := 10, feedback_tx := true }

/-- The state `try_match` leaves behind on `stateC1`. -/
def stateC1After : State Nat Nat :=
  { buffers := [(0, ⟨[200], some 200⟩), (1, ⟨[], some 200⟩)],
    commit_ts := some 100, buf_size := 2, window_size := 10, feedback_tx := true }

/-- Concrete state with one non-empty and one empty buffer. -/
def stateMixed : State Nat Nat :=
  { buffers := [(0, ⟨[5], some 5⟩), (1, ⟨[], none⟩)],
    commit_ts := none, buf_size := 2, window_size := 1, feedback_tx := true }

/-- Concrete fully well-formed two-key state used by witnesses. -/
def stateW : State Nat Nat :=
  { buffers := [(0, ⟨[3, 14], some 14⟩), (1, ⟨[4, 13], some 13⟩)],
    commit_ts := some 1, buf_size := 2, window_size := 5, feedback_tx := true }


/-- The per-key results list built inside `State::try_match` for a given
`inf` (the let-bound `results`). -/
def tmResults [Timestamped T] (s : State K T) (inf : Nat) :
    List (K × (Option T × Buffer T)) :=
  s.buffers.map (fun kb =>
    (kb.1, processBuffer (inDropRange s.commit_ts (inf - s.window_size)) inf
      (inf + s.window_size) kb.2))

/-- The collected group of `State::try_match` (the let-bound `items`). -/
def tmItems [Timestamped T] (s : State K T) (inf : Nat) : List (K × T) :=
  (tmResults s inf).filterMap (fun kr => kr.2.1.map (fun c => (kr.1, c)))

/-- The buffers left behind by `State::try_match`. -/
def tmBuffers [Timestamped T] (s : State K T) (inf : Nat) : List (K × Buffer T) :=
  (tmResults s inf).map (fun kr => (kr.1, kr.2.2))

/-- The state `try_match` leaves behind on `stateW`. -/
def stateWAfter : State Nat Nat :=
  { buffers := [(0, ⟨[14], some 14⟩), (1, ⟨[13], some 13⟩)],
    commit_ts := some 3, buf_size := 2, window_size := 5, feedback_tx := true }

-- ===== Lemmas and claim theorems =====

theorem minByAux_fwd_acc_none (l : List (Option Nat)) :
    minByAux cmpFwdOpt none l = none := by
  induction l with
  | nil => rfl
  | cons x xs ih => cases x <;> simp [minByAux, cmpFwdOpt, ih]

theorem minByAux_rev_acc_none (l : List (Option Nat)) :
    minByAux cmpRevOpt none l = none := by
  induction l with
  | nil => rfl
  | cons x xs ih => cases x <;> simp [minByAux, cmpRevOpt, ih]

theorem minByAux_fwd_none_mem (l : List (Option Nat)) (a : Option Nat)
    (h : none ∈ l) : minByAux cmpFwdOpt a l = none := by
  induction l generalizing a with
  | nil => simp at h
  | cons x xs ih =>
    rcases List.mem_cons.mp h with hx | hxs
    · subst hx
      cases a with
      | none => simpa [minByAux, cmpFwdOpt] using minByAux_fwd_acc_none xs
      | some av => simpa [minByAux, cmpFwdOpt] using minByAux_fwd_acc_none xs
    · simp only [minByAux]
      exact ih _ hxs

theorem minByAux_rev_none_mem (l : List (Option Nat)) (a : Option Nat)
    (h : none ∈ l) : minByAux cmpRevOpt a l = none := by
  induction l generalizing a with
  | nil => simp at h
  | cons x xs ih =>
    rcases List.mem_cons.mp h with hx | hxs
    · subst hx
      cases a with
      | none => simpa [minByAux, cmpRevOpt] using minByAux_rev_acc_none xs
      | some av => simpa [minByAux, cmpRevOpt] using minByAux_rev_acc_none xs
    · simp only [minByAux]
      exact ih _ hxs

theorem minByAux_fwd_some (l : List (Option Nat)) (a : Nat)
    (h : ∀ x ∈ l, x ≠ none) :
    ∃ m, minByAux cmpFwdOpt (some a) l = some m ∧ m ≤ a ∧
      (m = a ∨ some m ∈ l) ∧ (∀ x ∈ l, ∀ y, x = some y → m ≤ y) := by
  induction l generalizing a with
  | nil => exact ⟨a, rfl, le_refl a, Or.inl rfl, by simp⟩
  | cons x xs ih =>
    cases x with
    | none => exact absurd rfl (h none (List.mem_cons_self _ _))
    | some b =>
      have hxs : ∀ x ∈ xs, x ≠ none := fun x hx => h x (List.mem_cons_of_mem _ hx)
      by_cases hba : b < a
      · have hcmp : cmpFwdOpt (some b) (some a) = Ordering.lt := by
          simp [cmpFwdOpt, Nat.compare_eq_lt, hba]
        obtain ⟨m, hm, hma, hmem, hbd⟩ := ih b hxs
        refine ⟨m, ?_, le_trans hma (le_of_lt hba), ?_, ?_⟩
        · simpa [minByAux, hcmp] using hm
        · rcases hmem with rfl | hmm
          · exact Or.inr (List.mem_cons_self _ _)
          · exact Or.inr (List.mem_cons_of_mem _ hmm)
        · intro z hz y hzy
          rcases List.mem_cons.mp hz with rfl | hzz
          · cases hzy; exact hma
          · exact hbd z hzz y hzy
      · have hcmp : cmpFwdOpt (some b) (some a) ≠ Ordering.lt := by
          simp [cmpFwdOpt, Nat.compare_eq_lt, hba]
        obtain ⟨m, hm, hma, hmem, hbd⟩ := ih a hxs
        refine ⟨m, ?_, hma, ?_, ?_⟩
        · simpa [minByAux, if_neg hcmp] using hm
        · rcases hmem with rfl | hmm
          · exact Or.inl rfl
          · exact Or.inr (List.mem_cons_of_mem _ hmm)
        · intro z hz y hzy
          rcases List.mem_cons.mp hz with rfl | hzz
          · cases hzy; exact le_trans hma (Nat.le_of_not_lt hba)
          · exact hbd z hzz y hzy

theorem minByAux_rev_some (l : List (Option Nat)) (a : Nat)
    (h : ∀ x ∈ l, x ≠ none) :
    ∃ m, minByAux cmpRevOpt (some a) l = some m ∧ a ≤ m ∧
      (m = a ∨ some m ∈ l) ∧ (∀ x ∈ l, ∀ y, x = some y → y ≤ m) := by
  induction l generalizing a with
  | nil => exact ⟨a, rfl, le_refl a, Or.inl rfl, by simp⟩
  | cons x xs ih =>
    cases x with
    | none => exact absurd rfl (h none (List.mem_cons_self _ _))
    | some b =>
      have hxs : ∀ x ∈ xs, x ≠ none := fun x hx => h x (List.mem_cons_of_mem _ hx)
      by_cases hba : a < b
      · have hcmp : cmpRevOpt (some b) (some a) = Ordering.lt := by
          simp only [cmpRevOpt]
          rw [Nat.compare_eq_gt.mpr hba]
          rfl
        obtain ⟨m, hm, hma, hmem, hbd⟩ := ih b hxs
        refine ⟨m, ?_, le_trans (le_of_lt hba) hma, ?_, ?_⟩
        · simpa [minByAux, hcmp] using hm
        · rcases hmem with rfl | hmm
          · exact Or.inr (List.mem_cons_self _ _)
          · exact Or.inr (List.mem_cons_of_mem _ hmm)
        · intro z hz y hzy
          rcases List.mem_cons.mp hz with rfl | hzz
          · cases hzy; exact hma
          · exact hbd z hzz y hzy
      · have hba2 : b ≤ a := Nat.le_of_not_lt hba
        have hcmp : cmpRevOpt (some b) (some a) ≠ Ordering.lt := by
          simp only [cmpRevOpt]
          rcases Nat.lt_or_eq_of_le hba2 with h1 | h1
          · rw [Nat.compare_eq_lt.mpr h1]
            decide
          · subst h1
            rw [Nat.compare_eq_eq.mpr rfl]
            decide
        obtain ⟨m, hm, hma, hmem, hbd⟩ := ih a hxs
        refine ⟨m, ?_, hma, ?_, ?_⟩
        · simpa [minByAux, if_neg hcmp] using hm
        · rcases hmem with rfl | hmm
          · exact Or.inl rfl
          · exact Or.inr (List.mem_cons_of_mem _ hmm)
        · intro z hz y hzy
          rcases List.mem_cons.mp hz with rfl | hzz
          · cases hzy; exact le_trans hba2 hma
          · exact hbd z hzz y hzy

theorem minBy_join_none_fwd (l : List (Option Nat)) (h : none ∈ l) :
    (minBy cmpFwdOpt l).join = none := by
  cases l with
  | nil => simp at h
  | cons x xs =>
    rcases List.mem_cons.mp h with hx | hxs
    · subst hx
      simp [minBy, minByAux_fwd_acc_none]
    · simp [minBy, minByAux_fwd_none_mem xs x hxs]

theorem minBy_join_none_rev (l : List (Option Nat)) (h : none ∈ l) :
    (minBy cmpRevOpt l).join = none := by
  cases l with
  | nil => simp at h
  | cons x xs =>
    rcases List.mem_cons.mp h with hx | hxs
    · subst hx
      simp [minBy, minByAux_rev_acc_none]
    · simp [minBy, minByAux_rev_none_mem xs x hxs]

theorem Buffer.frontTs_of_nonempty [Timestamped T] (b : Buffer T) (h : b.buffer ≠ []) :
    ∃ t, b.frontTs = some t := by
  cases hb : b.buffer with
  | nil => exact absurd hb h
  | cons x rest => exact ⟨timestamp x, by simp [Buffer.frontTs, hb]⟩

theorem Buffer.backTs_of_nonempty [Timestamped T] (b : Buffer T) (h : b.buffer ≠ []) :
    ∃ t, b.backTs = some t := by
  have : b.buffer.getLast? ≠ none := by
    cases hb : b.buffer with
    | nil => exact absurd hb h
    | cons x rest => simp [List.getLast?]
  cases hg : b.buffer.getLast? with
  | none => exact absurd hg this
  | some x => exact ⟨timestamp x, by simp [Buffer.backTs, hg]⟩

theorem inf_timestamp_none_of_empty [Timestamped T] (s : State K T)
    (h : ∃ kb ∈ s.buffers, kb.2.buffer = []) : s.inf_timestamp = none := by
  obtain ⟨kb, hmem, hemp⟩ := h
  have : (none : Option Nat) ∈ s.buffers.map (fun kb => kb.2.frontTs) := by
    refine List.mem_map.mpr ⟨kb, hmem, ?_⟩
    simp [Buffer.frontTs, hemp]
  exact minBy_join_none_rev _ this

theorem sup_timestamp_none_of_empty [Timestamped T] (s : State K T)
    (h : ∃ kb ∈ s.buffers, kb.2.buffer = []) : s.sup_timestamp = none := by
  obtain ⟨kb, hmem, hemp⟩ := h
  have : (none : Option Nat) ∈ s.buffers.map (fun kb => kb.2.backTs) := by
    refine List.mem_map.mpr ⟨kb, hmem, ?_⟩
    simp [Buffer.backTs, hemp]
  exact minBy_join_none_fwd _ this

theorem min_timestamp_none_of_empty [Timestamped T] (s : State K T)
    (h : ∃ kb ∈ s.buffers, kb.2.buffer = []) : s.min_timestamp = none := by
  obtain ⟨kb, hmem, hemp⟩ := h
  have : (none : Option Nat) ∈ s.buffers.map (fun kb => kb.2.frontTs) := by
    refine List.mem_map.mpr ⟨kb, hmem, ?_⟩
    simp [Buffer.frontTs, hemp]
  exact minBy_join_none_fwd _ this

theorem minBy_rev_proj_char (f : α → Option Nat) (l : List α)
    (hne : l ≠ []) (h : ∀ x ∈ l, f x ≠ none) :
    ∃ m, (minBy cmpRevOpt (l.map f)).join = some m ∧
      (∃ x ∈ l, f x = some m) ∧ ∀ x ∈ l, ∀ y, f x = some y → y ≤ m := by
  cases l with
  | nil => exact absurd rfl hne
  | cons x0 rest =>
    have h0 := h x0 (List.mem_cons_self _ _)
    cases ht0 : f x0 with
    | none => exact absurd ht0 h0
    | some t0 =>
      have hall : ∀ x ∈ rest.map f, x ≠ none := by
        intro x hx
        obtain ⟨a, ha, rfl⟩ := List.mem_map.mp hx
        exact h a (List.mem_cons_of_mem _ ha)
      obtain ⟨m, hm, hue, hmem, hbd⟩ := minByAux_rev_some (rest.map f) t0 hall
      refine ⟨m, ?_, ?_, ?_⟩
      · simp [minBy, ht0, hm]
      · rcases hmem with rfl | hmm
        · exact ⟨x0, List.mem_cons_self _ _, ht0⟩
        · obtain ⟨a, ha, hf⟩ := List.mem_map.mp hmm
          exact ⟨a, List.mem_cons_of_mem _ ha, hf⟩
      · intro a ha y hy
        rcases List.mem_cons.mp ha with rfl | ha2
        · rw [ht0] at hy
          cases hy
          exact hue
        · exact hbd (f a) (List.mem_map.mpr ⟨a, ha2, rfl⟩) y hy

theorem minBy_fwd_proj_char (f : α → Option Nat) (l : List α)
    (hne : l ≠ []) (h : ∀ x ∈ l, f x ≠ none) :
    ∃ m, (minBy cmpFwdOpt (l.map f)).join = some m ∧
      (∃ x ∈ l, f x = some m) ∧ ∀ x ∈ l, ∀ y, f x = some y → m ≤ y := by
  cases l with
  | nil => exact absurd rfl hne
  | cons x0 rest =>
    have h0 := h x0 (List.mem_cons_self _ _)
    cases ht0 : f x0 with
    | none => exact absurd ht0 h0
    | some t0 =>
      have hall : ∀ x ∈ rest.map f, x ≠ none := by
        intro x hx
        obtain ⟨a, ha, rfl⟩ := List.mem_map.mp hx
        exact h a (List.mem_cons_of_mem _ ha)
      obtain ⟨m, hm, hue, hmem, hbd⟩ := minByAux_fwd_some (rest.map f) t0 hall
      refine ⟨m, ?_, ?_, ?_⟩
      · simp [minBy, ht0, hm]
      · rcases hmem with rfl | hmm
        · exact ⟨x0, List.mem_cons_self _ _, ht0⟩
        · obtain ⟨a, ha, hf⟩ := List.mem_map.mp hmm
          exact ⟨a, List.mem_cons_of_mem _ ha, hf⟩
      · intro a ha y hy
        rcases List.mem_cons.mp ha with rfl | ha2
        · rw [ht0] at hy
          cases hy
          exact hue
        · exact hbd (f a) (List.mem_map.mpr ⟨a, ha2, rfl⟩) y hy

theorem Buffer.frontTs_ne_none [Timestamped T] (b : Buffer T) (h : b.buffer ≠ []) :
    b.frontTs ≠ none := by
  obtain ⟨t, ht⟩ := Buffer.frontTs_of_nonempty b h
  simp [ht]

theorem Buffer.backTs_ne_none [Timestamped T] (b : Buffer T) (h : b.buffer ≠ []) :
    b.backTs ≠ none := by
  obtain ⟨t, ht⟩ := Buffer.backTs_of_nonempty b h
  simp [ht]

theorem inf_timestamp_char [Timestamped T] (s : State K T)
    (hne : s.buffers ≠ []) (h : ∀ kb ∈ s.buffers, kb.2.buffer ≠ []) :
    ∃ m, s.inf_timestamp = some m ∧
      (∃ kb ∈ s.buffers, kb.2.frontTs = some m) ∧
      ∀ kb ∈ s.buffers, ∀ y, kb.2.frontTs = some y → y ≤ m := by
  exact minBy_rev_proj_char (fun kb => kb.2.frontTs) s.buffers hne
    (fun kb hkb => Buffer.frontTs_ne_none kb.2 (h kb hkb))

theorem sup_timestamp_char [Timestamped T] (s : State K T)
    (hne : s.buffers ≠ []) (h : ∀ kb ∈ s.buffers, kb.2.buffer ≠ []) :
    ∃ m, s.sup_timestamp = some m ∧
      (∃ kb ∈ s.buffers, kb.2.backTs = some m) ∧
      ∀ kb ∈ s.buffers, ∀ y, kb.2.backTs = some y → m ≤ y := by
  exact minBy_fwd_proj_char (fun kb => kb.2.backTs) s.buffers hne
    (fun kb hkb => Buffer.backTs_ne_none kb.2 (h kb hkb))

theorem min_timestamp_char [Timestamped T] (s : State K T)
    (hne : s.buffers ≠ []) (h : ∀ kb ∈ s.buffers, kb.2.buffer ≠ []) :
    ∃ m, s.min_timestamp = some m ∧
      (∃ kb ∈ s.buffers, kb.2.frontTs = some m) ∧
      ∀ kb ∈ s.buffers, ∀ y, kb.2.frontTs = some y → m ≤ y := by
  exact minBy_fwd_proj_char (fun kb => kb.2.frontTs) s.buffers hne
    (fun kb hkb => Buffer.frontTs_ne_none kb.2 (h kb hkb))



theorem minByAux_mem (cmp : α → α → Ordering) :
    ∀ (l : List α) (a : α), minByAux cmp a l ∈ a :: l := by
  intro l
  induction l with
  | nil => intro a; simp [minByAux]
  | cons x xs ih =>
    intro a
    simp only [minByAux]
    by_cases hc : cmp x a = Ordering.lt
    · rw [if_pos hc]
      rcases List.mem_cons.mp (ih x) with h | h
      · rw [h]
        exact List.mem_cons_of_mem _ (List.mem_cons_self _ _)
      · exact List.mem_cons_of_mem _ (List.mem_cons_of_mem _ h)
    · rw [if_neg hc]
      rcases List.mem_cons.mp (ih a) with h | h
      · rw [h]
        exact List.mem_cons_self _ _
      · exact List.mem_cons_of_mem _ (List.mem_cons_of_mem _ h)

theorem minBy_join_mem (cmp : Option Nat → Option Nat → Ordering)
    (l : List (Option Nat)) (m : Nat) (h : (minBy cmp l).join = some m) :
    some m ∈ l := by
  cases l with
  | nil => simp [minBy] at h
  | cons x xs =>
    have hmem := minByAux_mem cmp xs x
    have : minByAux cmp x xs = some m := by
      simpa [minBy, Option.join] using h
    rw [this] at hmem
    exact hmem

theorem min_timestamp_mem [Timestamped T] (s : State K T) (m : Nat)
    (h : s.min_timestamp = some m) : ∃ kb ∈ s.buffers, kb.2.frontTs = some m := by
  have := minBy_join_mem cmpFwdOpt _ m h
  obtain ⟨kb, hkb, hf⟩ := List.mem_map.mp this
  exact ⟨kb, hkb, hf⟩

theorem inf_timestamp_mem [Timestamped T] (s : State K T) (m : Nat)
    (h : s.inf_timestamp = some m) : ∃ kb ∈ s.buffers, kb.2.frontTs = some m := by
  have := minBy_join_mem cmpRevOpt _ m h
  obtain ⟨kb, hkb, hf⟩ := List.mem_map.mp this
  exact ⟨kb, hkb, hf⟩

/-- Claim C2 (amended): the reductions are defined exactly when the key
set is non-empty and every buffer is non-empty; in that case
`inf_timestamp` is the maximum of the front timestamps and
`sup_timestamp` is the minimum of the back timestamps.  A single empty
buffer, even alongside non-empty ones, makes both reductions undefined. -/
theorem C2_reductions [Timestamped T] (s : State K T) :
    ((s.buffers ≠ [] ∧ ∀ kb ∈ s.buffers, kb.2.buffer ≠ []) →
      (∃ m, s.inf_timestamp = some m ∧
        (∃ kb ∈ s.buffers, kb.2.frontTs = some m) ∧
        ∀ kb ∈ s.buffers, ∀ y, kb.2.frontTs = some y → y ≤ m) ∧
      (∃ m, s.sup_timestamp = some m ∧
        (∃ kb ∈ s.buffers, kb.2.backTs = some m) ∧
        ∀ kb ∈ s.buffers, ∀ y, kb.2.backTs = some y → m ≤ y)) ∧
    ((∃ kb ∈ s.buffers, kb.2.buffer = []) →
      s.inf_timestamp = none ∧ s.sup_timestamp = none) := by
  constructor
  · intro ⟨hne, hall⟩
    exact ⟨inf_timestamp_char s hne hall, sup_timestamp_char s hne hall⟩
  · intro h
    exact ⟨inf_timestamp_none_of_empty s h, sup_timestamp_none_of_empty s h⟩

/-- Witness for C2_reductions at a concrete all-non-empty state. -/
theorem C2_reductions_witness :
    ∃ m, stateW.inf_timestamp = some m ∧
      (∃ kb ∈ stateW.buffers, kb.2.frontTs = some m) ∧
      ∀ kb ∈ stateW.buffers, ∀ y, kb.2.frontTs = some y → y ≤ m :=
  ((C2_reductions stateW).1 ⟨by decide, by decide⟩).1

/-- Counterexample to claim C2 as stated: in `stateMixed` buffer 0 is
non-empty with front 5 while buffer 1 is empty, yet both reductions are
undefined rather than `some 5`. -/
theorem C2_counterexample :
    (∃ kb ∈ stateMixed.buffers, kb.2.buffer ≠ []) ∧
    stateMixed.inf_timestamp = none ∧ stateMixed.sup_timestamp = none :=
  ⟨⟨(0, ⟨[5], some 5⟩), by decide, by decide⟩, rfl, rfl⟩

theorem dropFrontIfMin_length_le [Timestamped T] (m : Nat) (b : Buffer T) :
    (dropFrontIfMin m b).buffer.length ≤ b.buffer.length := by
  cases hb : b.buffer with
  | nil => simp [dropFrontIfMin, hb]
  | cons x rest =>
    simp only [dropFrontIfMin, hb]
    split
    · simp [hb]
    · simp [hb]

theorem sum_dropFrontIfMin_le [Timestamped T] (m : Nat) :
    ∀ l : List (K × Buffer T),
      ((l.map (fun kb => (kb.1, dropFrontIfMin m kb.2))).map
        (fun kb => kb.2.buffer.length)).sum ≤
      (l.map (fun kb => kb.2.buffer.length)).sum := by
  intro l
  induction l with
  | nil => simp
  | cons kb rest ih =>
    simp only [List.map_cons, List.sum_cons]
    exact Nat.add_le_add (dropFrontIfMin_length_le m kb.2) ih

theorem sum_dropFrontIfMin_lt [Timestamped T] (m : Nat) :
    ∀ l : List (K × Buffer T), (∃ kb ∈ l, kb.2.frontTs = some m) →
      ((l.map (fun kb => (kb.1, dropFrontIfMin m kb.2))).map
        (fun kb => kb.2.buffer.length)).sum <
      (l.map (fun kb => kb.2.buffer.length)).sum := by
  intro l
  induction l with
  | nil => intro h; simp at h
  | cons kb rest ih =>
    intro h
    simp only [List.map_cons, List.sum_cons]
    rcases h with ⟨kb2, hmem, hf⟩
    rcases List.mem_cons.mp hmem with rfl | hmem2
    · have hlt : (dropFrontIfMin m kb2.2).buffer.length < kb2.2.buffer.length := by
        cases hb : kb2.2.buffer with
        | nil => simp [Buffer.frontTs, hb] at hf
        | cons x r =>
          have hx : timestamp x = m := by
            simpa [Buffer.frontTs, hb] using hf
          simp [dropFrontIfMin, hb, hx]
      exact Nat.add_lt_add_of_lt_of_le hlt (sum_dropFrontIfMin_le m rest)
    · exact Nat.add_lt_add_of_le_of_lt (dropFrontIfMin_length_le m kb.2) (ih ⟨kb2, hmem2, hf⟩)

/-- Claim C3 (amended): `min_timestamp` is defined exactly when every
buffer is non-empty (so an empty buffer alongside non-empty ones makes it
undefined and `drop_min` a no-op returning false); when all buffers are
non-empty, `drop_min` pops the front of every buffer whose front equals
the global minimum front timestamp and returns true.  It returns false
exactly when nothing is dropped. -/
theorem C3_drop_min [Timestamped T] (s : State K T) :
    ((s.buffers ≠ [] ∧ ∀ kb ∈ s.buffers, kb.2.buffer ≠ []) →
      s.drop_min.1 = true ∧
      ∃ m, s.min_timestamp = some m ∧
        s.drop_min.2.buffers = s.buffers.map (fun kb => (kb.1, dropFrontIfMin m kb.2)) ∧
        (∃ kb ∈ s.buffers, kb.2.frontTs = some m) ∧
        ∀ kb ∈ s.buffers, ∀ y, kb.2.frontTs = some y → m ≤ y) ∧
    (s.drop_min.1 = false → s.drop_min.2 = s) ∧
    (s.drop_min.1 = true → s.drop_min.2.msgCount < s.msgCount) := by
  refine ⟨?_, ?_, ?_⟩
  · intro ⟨hne, hall⟩
    obtain ⟨m, hm, hmem, hbd⟩ := min_timestamp_char s hne hall
    refine ⟨?_, m, hm, ?_, hmem, hbd⟩
    · simp [State.drop_min, hm]
    · simp [State.drop_min, hm]
  · intro h
    cases hm : s.min_timestamp with
    | none => simp [State.drop_min, hm]
    | some m => simp [State.drop_min, hm] at h
  · intro h
    cases hm : s.min_timestamp with
    | none => simp [State.drop_min, hm] at h
    | some m =>
      have hmem := min_timestamp_mem s m hm
      have := sum_dropFrontIfMin_lt m s.buffers hmem
      simpa [State.drop_min, hm, State.msgCount] using this

/-- Witness for C3_drop_min at a concrete all-non-empty state. -/
theorem C3_drop_min_witness :
    stateW.drop_min.1 = true ∧
    ∃ m, stateW.min_timestamp = some m ∧
      stateW.drop_min.2.buffers = stateW.buffers.map (fun kb => (kb.1, dropFrontIfMin m kb.2)) ∧
      (∃ kb ∈ stateW.buffers, kb.2.frontTs = some m) ∧
      ∀ kb ∈ stateW.buffers, ∀ y, kb.2.frontTs = some y → m ≤ y :=
  (C3_drop_min stateW).1 ⟨by decide, by decide⟩

/-- Counterexample to claim C3 as stated: in `stateMixed` buffer 0 is
non-empty, yet `drop_min` drops nothing and returns false because the
empty buffer 1 makes `min_timestamp` undefined. -/
theorem C3_counterexample :
    (∃ kb ∈ stateMixed.buffers, kb.2.buffer ≠ []) ∧
    stateMixed.drop_min = (false, stateMixed) :=
  ⟨⟨(0, ⟨[5], some 5⟩), by decide, by decide⟩, rfl⟩


/-- Claim C4 (amended): every successful `sync` yields an initial feedback
whose accepted keys are the full configured key set in construction order
and whose `accepted_max_timestamp` and `commit_timestamp` are both unset;
the state watermark, by contrast, does start at `config.start_time`. -/
theorem C4_sync_feedback (T : Type) [DecidableEq K] (keys : List K) (config : Config)
    (s : State K T) (fb : Feedback K)
    (h : sync T keys config = Except.ok (s, fb)) :
    fb.accepted_keys = s.buffers.map (fun kb => kb.1) ∧
    s.buffers.map (fun kb => kb.1) = dedupKeys keys ∧
    fb.accepted_max_timestamp = none ∧
    fb.commit_timestamp = none ∧
    s.commit_ts = config.start_time := by
  unfold sync at h
  split at h
  · split at h
    · simp only [] at h
      split at h
      · simp at h
      · simp only [Except.ok.injEq, Prod.mk.injEq] at h
        obtain ⟨hs, hfb⟩ := h
        subst hs
        subst hfb
        refine ⟨rfl, ?_, rfl, rfl, rfl⟩
        rw [List.map_map]
        exact List.map_id _
    · simp at h
  · simp at h

/-- Witness for C4_sync_feedback at a concrete construction. -/
theorem C4_sync_feedback_witness :
    (Feedback.mk (K := Nat) none none [0]).accepted_keys =
      (State.mk (T := Nat) [(0, ⟨[], none⟩)] (some 5) 2 1 true).buffers.map (fun kb => kb.1) ∧
    (State.mk (T := Nat) [(0, ⟨[], none⟩)] (some 5) 2 1 true).buffers.map (fun kb => kb.1) =
      dedupKeys [0] ∧
    (Feedback.mk (K := Nat) none none [0]).accepted_max_timestamp = none ∧
    (Feedback.mk (K := Nat) none none [0]).commit_timestamp = none ∧
    (State.mk (T := Nat) [(0, ⟨[], none⟩)] (some 5) 2 1 true).commit_ts =
      (Config.mk 1 (some 5) 2).start_time :=
  C4_sync_feedback Nat [0] (Config.mk 1 (some 5) 2)
    (State.mk [(0, ⟨[], none⟩)] (some 5) 2 1 true)
    (Feedback.mk none none [0]) rfl

/-- Counterexample to claim C4 as stated: with `start_time = some 5` the
initial feedback carries `commit_timestamp = none`, not the configured
start time. -/
theorem C4_counterexample :
    sync Nat (K := Nat) [0] (Config.mk 1 (some 5) 2) =
      Except.ok (State.mk [(0, ⟨[], none⟩)] (some 5) 2 1 true,
                 Feedback.mk none none [0]) ∧
    (Feedback.mk (K := Nat) none none [0]).commit_timestamp ≠
      (Config.mk 1 (some 5) 2).start_time :=
  ⟨rfl, by decide⟩

/-- Claim C10: with one empty and one non-empty buffer, `try_match`
returns no group and leaves the state unchanged (the inf reduction is
undefined), `drop_min` drops nothing and returns false (the min reduction
is undefined), the state is not `is_empty`, and therefore the drain loop
of `poll` spins forever on the same state, never emitting the remaining
messages and never reaching end-of-output. -/
theorem C10_stuck [Timestamped T] (s : State K T)
    (hemp : ∃ kb ∈ s.buffers, kb.2.buffer = [])
    (hne : ∃ kb ∈ s.buffers, kb.2.buffer ≠ []) :
    s.try_match = Except.ok (none, s) ∧
    s.drop_min = (false, s) ∧
    s.is_empty = false ∧
    ∀ n, iterDrain n s = Except.ok (DrainOut.again s) := by
  have hinf : s.inf_timestamp = none := inf_timestamp_none_of_empty s hemp
  have hmin : s.min_timestamp = none := min_timestamp_none_of_empty s hemp
  have htm : s.try_match = Except.ok (none, s) := by
    unfold State.try_match
    rw [hinf]
  have hdm : s.drop_min = (false, s) := by
    unfold State.drop_min
    rw [hmin]
  have hie : s.is_empty = false := by
    obtain ⟨kb, hkb, hkbne⟩ := hne
    unfold State.is_empty
    rw [List.all_eq_false]
    exact ⟨kb, hkb, by simpa using hkbne⟩
  refine ⟨htm, hdm, hie, ?_⟩
  have hds : drainStep s = Except.ok (DrainOut.again s) := by
    unfold drainStep
    rw [hie, htm]
    simp [hdm]
  intro n
  induction n with
  | zero => rfl
  | succ n ih =>
    unfold iterDrain
    rw [hds]
    exact ih

/-- Witness for C10_stuck at the concrete mixed state. -/
theorem C10_stuck_witness :
    stateMixed.try_match = Except.ok (none, stateMixed) ∧
    stateMixed.drop_min = (false, stateMixed) ∧
    stateMixed.is_empty = false ∧
    ∀ n, iterDrain n stateMixed = Except.ok (DrainOut.again stateMixed) :=
  C10_stuck stateMixed ⟨(1, ⟨[], none⟩), by decide, by decide⟩
    ⟨(0, ⟨[5], some 5⟩), by decide, by decide⟩


theorem try_push_true_iff [Timestamped T] (b : Buffer T) (item : T) :
    (b.try_push item).1 = true ↔ ∀ l, b.last_ts = some l → l < timestamp item := by
  cases hl : b.last_ts with
  | none => simp [Buffer.try_push, hl]
  | some l =>
    by_cases hle : timestamp item ≤ l
    · simp only [Buffer.try_push, hl, if_pos hle]
      constructor
      · intro h
        cases h
      · intro h
        have := h l rfl
        omega
    · simp only [Buffer.try_push, hl, if_neg hle]
      constructor
      · intro _ l2 hl2
        cases hl2
        omega
      · intro _
        trivial

theorem try_push_false_eq [Timestamped T] (b : Buffer T) (item : T)
    (h : (b.try_push item).1 = false) : (b.try_push item).2 = b := by
  cases hl : b.last_ts with
  | none => simp [Buffer.try_push, hl] at h
  | some l =>
    by_cases hle : timestamp item ≤ l
    · simp [Buffer.try_push, hl, hle]
    · simp [Buffer.try_push, hl, hle] at h

theorem pushIntoBuffers_none_iff [DecidableEq K] [Timestamped T] (item : T) (key : K) :
    ∀ l : List (K × Buffer T), pushIntoBuffers item key l = none ↔ ∀ kb ∈ l, kb.1 ≠ key := by
  intro l
  induction l with
  | nil => simp [pushIntoBuffers]
  | cons kb rest ih =>
    by_cases hk : kb.1 = key
    · simp [pushIntoBuffers, hk]
    · simp only [pushIntoBuffers, if_neg hk, Option.map_eq_none']
      rw [ih]
      constructor
      · intro h x hx
        rcases List.mem_cons.mp hx with rfl | hx2
        · exact hk
        · exact h x hx2
      · intro h x hx
        exact h x (List.mem_cons_of_mem _ hx)

theorem pushIntoBuffers_append [DecidableEq K] [Timestamped T] (item : T) (key : K) :
    ∀ (pre : List (K × Buffer T)), (∀ kb ∈ pre, kb.1 ≠ key) → ∀ (b : Buffer T) post,
      pushIntoBuffers item key (pre ++ (key, b) :: post) =
        some ((b.try_push item).1, pre ++ (key, (b.try_push item).2) :: post) := by
  intro pre
  induction pre with
  | nil =>
    intro _ b post
    simp [pushIntoBuffers]
  | cons kb rest ih =>
    intro hpre b post
    have hk : kb.1 ≠ key := hpre kb (List.mem_cons_self _ _)
    simp [pushIntoBuffers, hk,
      ih (fun x hx => hpre x (List.mem_cons_of_mem _ hx)) b post]

theorem pushIntoBuffers_some_decomp [DecidableEq K] [Timestamped T] (item : T) (key : K) :
    ∀ l r, pushIntoBuffers item key l = some r →
      ∃ pre b post, l = pre ++ (key, b) :: post ∧ (∀ kb ∈ pre, kb.1 ≠ key) ∧
        r = ((b.try_push item).1, pre ++ (key, (b.try_push item).2) :: post) := by
  intro l
  induction l with
  | nil =>
    intro r h
    simp [pushIntoBuffers] at h
  | cons kb rest ih =>
    intro r h
    by_cases hk : kb.1 = key
    · obtain ⟨k1, b1⟩ := kb
      cases hk
      have heq : pushIntoBuffers item k1 ((k1, b1) :: rest) =
          some ((b1.try_push item).1, (k1, (b1.try_push item).2) :: rest) := by
        simp [pushIntoBuffers]
      rw [heq] at h
      injection h with h2
      exact ⟨[], b1, rest, by simp, by simp, h2.symm⟩
    · simp only [pushIntoBuffers, if_neg hk, Option.map_eq_some'] at h
      obtain ⟨a, ha, har⟩ := h
      obtain ⟨pre, b, post, hl, hpre, hr⟩ := ih a ha
      refine ⟨kb :: pre, b, post, by simp [hl], ?_, ?_⟩
      · intro x hx
        rcases List.mem_cons.mp hx with rfl | hx2
        · exact hk
        · exact hpre x hx2
      · rw [← har, hr]
        simp

/-- Claim C7: `push(key, item)` succeeds exactly when the key is
configured, the timestamp is strictly above the watermark (when set), and
strictly above that buffer's `last_ts` (when set); on failure the whole
state is unchanged. -/
theorem C7_push_spec [DecidableEq K] [Timestamped T] (s : State K T) (key : K) (item : T) :
    ((s.push key item).1 = true ↔
      (∀ c, s.commit_ts = some c → c < timestamp item) ∧
      (∃ pre b post, s.buffers = pre ++ (key, b) :: post ∧
        (∀ kb ∈ pre, kb.1 ≠ key) ∧
        (∀ l, b.last_ts = some l → l < timestamp item))) ∧
    ((s.push key item).1 = false → (s.push key item).2 = s) := by
  have hauxeq : ∀ h : s.commit_ts = s.commit_ts, True := fun _ => trivial
  cases hc : s.commit_ts with
  | some c =>
    by_cases hle : timestamp item ≤ c
    · constructor
      · simp only [State.push, hc, if_pos hle]
        constructor
        · intro h
          cases h
        · intro ⟨h1, _⟩
          have := h1 c rfl
          omega
      · intro _
        simp [State.push, hc, if_pos hle]
    · simp only [State.push, hc, if_neg hle]
      constructor
      · cases hp : pushIntoBuffers item key s.buffers with
        | none =>
          simp only [State.pushAux, hp]
          constructor
          · intro h
            cases h
          · intro ⟨_, pre, b, post, hbuf, hpre, _⟩
            rw [hbuf, pushIntoBuffers_append item key pre hpre b post] at hp
            cases hp
        | some r =>
          obtain ⟨pre, b, post, hbuf, hpre, hr⟩ := pushIntoBuffers_some_decomp item key _ r hp
          simp only [State.pushAux, hp]
          subst hr
          constructor
          · intro h
            refine ⟨?_, pre, b, post, hbuf, hpre, ?_⟩
            · intro c2 hc2
              cases hc2
              omega
            · exact (try_push_true_iff b item).mp h
          · intro ⟨_, pre2, b2, post2, hbuf2, hpre2, hlast⟩
            have : pushIntoBuffers item key s.buffers =
                some ((b2.try_push item).1, pre2 ++ (key, (b2.try_push item).2) :: post2) :=
              hbuf2 ▸ pushIntoBuffers_append item key pre2 hpre2 b2 post2
            rw [hp] at this
            injection this with h3
            have hb1 : (b2.try_push item).1 = true := (try_push_true_iff b2 item).mpr hlast
            have h4 := congrArg Prod.fst h3
            simp only at h4
            rw [h4]
            exact hb1
      · intro hfail
        revert hfail
        cases hp : pushIntoBuffers item key s.buffers with
        | none => simp [State.pushAux, hp]
        | some r =>
          obtain ⟨pre, b, post, hbuf, hpre, hr⟩ := pushIntoBuffers_some_decomp item key _ r hp
          subst hr
          simp only [State.pushAux, hp]
          intro hfail
          have hb2 : (b.try_push item).2 = b := try_push_false_eq b item hfail
          rw [hb2, ← hbuf]
  | none =>
    simp only [State.push, hc]
    constructor
    · cases hp : pushIntoBuffers item key s.buffers with
      | none =>
        simp only [State.pushAux, hp]
        constructor
        · intro h
          cases h
        · intro ⟨_, pre, b, post, hbuf, hpre, _⟩
          rw [hbuf, pushIntoBuffers_append item key pre hpre b post] at hp
          cases hp
      | some r =>
        obtain ⟨pre, b, post, hbuf, hpre, hr⟩ := pushIntoBuffers_some_decomp item key _ r hp
        simp only [State.pushAux, hp]
        subst hr
        constructor
        · intro h
          refine ⟨?_, pre, b, post, hbuf, hpre, ?_⟩
          · intro c2 hc2
            cases hc2
          · exact (try_push_true_iff b item).mp h
        · intro ⟨_, pre2, b2, post2, hbuf2, hpre2, hlast⟩
          have : pushIntoBuffers item key s.buffers =
              some ((b2.try_push item).1, pre2 ++ (key, (b2.try_push item).2) :: post2) :=
            hbuf2 ▸ pushIntoBuffers_append item key pre2 hpre2 b2 post2
          rw [hp] at this
          injection this with h3
          have hb1 : (b2.try_push item).1 = true := (try_push_true_iff b2 item).mpr hlast
          have h4 := congrArg Prod.fst h3
          simp only at h4
          rw [h4]
          exact hb1
    · intro hfail
      revert hfail
      cases hp : pushIntoBuffers item key s.buffers with
      | none => simp [State.pushAux, hp]
      | some r =>
        obtain ⟨pre, b, post, hbuf, hpre, hr⟩ := pushIntoBuffers_some_decomp item key _ r hp
        subst hr
        simp only [State.pushAux, hp]
        intro hfail
        have hb2 : (b.try_push item).2 = b := try_push_false_eq b item hfail
        rw [hb2, ← hbuf]

/-- Witness for C7_push_spec: pushing 7 on key 0 of stateMixed succeeds. -/
theorem C7_push_spec_witness :
    (stateMixed.push 0 7).1 = true := by
  apply ((C7_push_spec stateMixed 0 7).1).mpr
  refine ⟨?_, [], ⟨[5], some 5⟩, [(1, ⟨[], none⟩)], rfl, ?_, ?_⟩
  · intro c hc
    simp [stateMixed] at hc
  · simp
  · intro l hl
    simp only [stateMixed] at hl
    cases hl
    decide


theorem tryMatch_keys_aux [Timestamped T] (drop : Nat → Bool) (inf we : Nat) :
    ∀ l : List (K × Buffer T),
      (((l.map (fun kb => (kb.1, processBuffer drop inf we kb.2))).filterMap
        (fun kr => kr.2.1.map (fun c => (kr.1, c)))).map Prod.fst).Sublist
        (l.map Prod.fst) := by
  intro l
  induction l with
  | nil => simp
  | cons kb rest ih =>
    simp only [List.map_cons, List.filterMap_cons]
    cases hp : (processBuffer drop inf we kb.2).1 with
    | none =>
      simp only [Option.map_none']
      exact ih.cons _
    | some c =>
      simp only [Option.map_some', List.map_cons]
      exact ih.cons₂ _

/-- Claim C1 (amended): every group returned by `try_match` maps a
subsequence of the configured keys, hence at most one message per key
(and no unknown keys); but it may cover a strict subset of the keys: a
key whose first non-dropped front lies above `window_end` is skipped
while the remaining keys still form the emitted group. -/
theorem C1_group_keys [Timestamped T] (s : State K T) (g : List (K × T)) (s2 : State K T)
    (h : s.try_match = Except.ok (some g, s2)) :
    (g.map Prod.fst).Sublist (s.buffers.map Prod.fst) ∧
    ((s.buffers.map Prod.fst).Nodup → (g.map Prod.fst).Nodup) := by
  unfold State.try_match at h
  split at h
  · rename_i inf sup hinf hsup
    split at h
    · simp only [] at h
      split at h
      · cases h
      · rename_i m hm
        simp only [Except.ok.injEq, Prod.mk.injEq] at h
        obtain ⟨hg, _⟩ := h
        have hg2 : g = (s.buffers.map
            (fun kb => (kb.1, processBuffer (inDropRange s.commit_ts (inf - s.window_size))
              inf (inf + s.window_size) kb.2))).filterMap
            (fun kr => kr.2.1.map (fun c => (kr.1, c))) := by
          cases hg
          rfl
        subst hg2
        have hsub := tryMatch_keys_aux
          (inDropRange s.commit_ts (inf - s.window_size)) inf (inf + s.window_size) s.buffers
        exact ⟨hsub, fun hnd => hnd.sublist hsub⟩
    · cases h
  · cases h

/-- Witness for C1_group_keys at the concrete partial-group state. -/
theorem C1_group_keys_witness :
    (([((0 : Nat), (100 : Nat))]).map Prod.fst).Sublist (stateC1.buffers.map Prod.fst) ∧
    ((stateC1.buffers.map Prod.fst).Nodup → (([((0 : Nat), (100 : Nat))]).map Prod.fst).Nodup) :=
  C1_group_keys stateC1 [(0, 100)] stateC1After rfl

/-- Counterexample to claim C1 as stated: on `stateC1` the matcher emits
the group covering only key 0 although keys 0 and 1 are configured — key
1 is skipped because its first non-dropped front (200) lies above
`window_end` (110), yet the group is not abandoned. -/
theorem C1_counterexample :
    stateC1.try_match = Except.ok (some [(0, 100)], stateC1After) ∧
    stateC1.buffers.map Prod.fst = [0, 1] ∧
    [((0 : Nat), (100 : Nat))].map Prod.fst ≠ stateC1.buffers.map Prod.fst :=
  ⟨rfl, rfl, by decide⟩


theorem durationDiff_le_iff (inf t w : Nat) :
    durationDiff inf t ≤ w ↔ (inf ≤ t + w ∧ t ≤ inf + w) := by
  unfold durationDiff
  split <;> omega

theorem inDropRange_false_ge (commit : Option Nat) (ws t : Nat)
    (h : inDropRange commit ws t = false) : ws ≤ t := by
  cases commit with
  | none =>
    simp [inDropRange] at h
    omega
  | some c =>
    simp only [inDropRange] at h
    split at h <;> simp at h <;> omega

theorem findCandidate_spec [Timestamped T] (drop : Nat → Bool) (we : Nat) :
    ∀ l : List T,
      (∀ c rest, findCandidate drop we l = (some c, rest) →
        (∃ pre, l = pre ++ c :: rest ∧ (∀ x ∈ pre, drop (timestamp x) = true)) ∧
        drop (timestamp c) = false ∧ timestamp c ≤ we) ∧
      (∀ rest, findCandidate drop we l = (none, rest) →
        rest = [] ∨ ∃ pre x, l = pre ++ x :: rest ∧ (∀ y ∈ pre, drop (timestamp y) = true) ∧
          drop (timestamp x) = false ∧ we < timestamp x) := by
  intro l
  induction l with
  | nil =>
    constructor
    · intro c rest h
      simp [findCandidate] at h
    · intro rest h
      simp only [findCandidate, Prod.mk.injEq] at h
      exact Or.inl h.2.symm
  | cons x rest0 ih =>
    by_cases hd : drop (timestamp x) = true
    · constructor
      · intro c rest h
        simp only [findCandidate, if_pos hd] at h
        obtain ⟨⟨pre, hpre, hpredrop⟩, hc1, hc2⟩ := ih.1 c rest h
        refine ⟨⟨x :: pre, by simp [hpre], ?_⟩, hc1, hc2⟩
        intro y hy
        rcases List.mem_cons.mp hy with rfl | hy2
        · exact hd
        · exact hpredrop y hy2
      · intro rest h
        simp only [findCandidate, if_pos hd] at h
        rcases ih.2 rest h with h2 | ⟨pre, z, hpre, hpredrop, hz1, hz2⟩
        · exact Or.inl h2
        · refine Or.inr ⟨x :: pre, z, by simp [hpre], ?_, hz1, hz2⟩
          intro y hy
          rcases List.mem_cons.mp hy with rfl | hy2
          · exact hd
          · exact hpredrop y hy2
    · have hd2 : drop (timestamp x) = false := by
        revert hd
        cases drop (timestamp x) <;> simp
      by_cases hw : we < timestamp x
      · constructor
        · intro c rest h
          simp [findCandidate, hd2, hw] at h
        · intro rest h
          simp [findCandidate, hd2, hw] at h
          exact Or.inr ⟨[], x, by simp [h], by simp, hd2, hw⟩
      · constructor
        · intro c rest h
          simp [findCandidate, hd2, hw] at h
          obtain ⟨rfl, rfl⟩ := h
          exact ⟨⟨[], by simp, by simp⟩, hd2, Nat.le_of_not_lt hw⟩
        · intro rest h
          simp [findCandidate, hd2, hw] at h

theorem improve_spec [Timestamped T] (inf we : Nat) :
    ∀ (l : List T) (cand : T),
      (∀ rest2, improve inf we cand (durationDiff inf (timestamp cand)) l = (none, rest2) →
        rest2 = []) ∧
      (∀ c2 rest2, improve inf we cand (durationDiff inf (timestamp cand)) l =
          (some c2, rest2) →
        (c2 = cand ∨ c2 ∈ l) ∧ (∃ pre, l = pre ++ rest2) ∧
        durationDiff inf (timestamp c2) ≤ durationDiff inf (timestamp cand) ∧
        (timestamp cand ≤ we → timestamp c2 ≤ we)) := by
  intro l
  induction l with
  | nil =>
    intro cand
    constructor
    · intro rest2 h
      simp only [improve, Prod.mk.injEq] at h
      exact h.2.symm
    · intro c2 rest2 h
      simp [improve] at h
  | cons x rest ih =>
    intro cand
    by_cases hw : we < timestamp x
    · constructor
      · intro rest2 h
        simp [improve, hw] at h
      · intro c2 rest2 h
        simp only [improve, if_pos hw, Prod.mk.injEq, Option.some.injEq] at h
        obtain ⟨rfl, rfl⟩ := h
        exact ⟨Or.inl rfl, ⟨[], rfl⟩, le_refl _, fun h => h⟩
    · by_cases himp : durationDiff inf (timestamp x) < durationDiff inf (timestamp cand)
      · constructor
        · intro rest2 h
          simp only [improve, if_neg hw, if_pos himp] at h
          exact (ih x).1 rest2 h
        · intro c2 rest2 h
          simp only [improve, if_neg hw, if_pos himp] at h
          obtain ⟨hm, ⟨pre, hpre⟩, hdd, hweb⟩ := (ih x).2 c2 rest2 h
          refine ⟨?_, ⟨x :: pre, by simp [hpre]⟩, le_trans hdd (le_of_lt himp), ?_⟩
          · rcases hm with rfl | hm2
            · exact Or.inr (List.mem_cons_self _ _)
            · exact Or.inr (List.mem_cons_of_mem _ hm2)
          · intro _
            exact hweb (Nat.le_of_not_lt hw)
      · constructor
        · intro rest2 h
          simp [improve, hw, himp] at h
        · intro c2 rest2 h
          simp only [improve, if_neg hw, if_neg himp, Prod.mk.injEq,
            Option.some.injEq] at h
          obtain ⟨rfl, rfl⟩ := h
          exact ⟨Or.inl rfl, ⟨[], rfl⟩, le_refl _, fun h => h⟩

theorem improve_sorted [Timestamped T] (inf we : Nat) :
    ∀ (l : List T) (cand : T),
      List.Pairwise (fun a c => timestamp a < timestamp c) (cand :: l) →
      ∀ c2 rest2, improve inf we cand (durationDiff inf (timestamp cand)) l =
        (some c2, rest2) →
        ∀ x ∈ rest2, timestamp c2 < timestamp x := by
  intro l
  induction l with
  | nil =>
    intro cand _ c2 rest2 h
    simp [improve] at h
  | cons x rest ih =>
    intro cand hp c2 rest2 h
    by_cases hw : we < timestamp x
    · simp only [improve, if_pos hw, Prod.mk.injEq, Option.some.injEq] at h
      obtain ⟨rfl, rfl⟩ := h
      intro y hy
      exact (List.pairwise_cons.mp hp).1 y hy
    · by_cases himp : durationDiff inf (timestamp x) < durationDiff inf (timestamp cand)
      · simp only [improve, if_neg hw, if_pos himp] at h
        exact ih x (List.pairwise_cons.mp hp).2 c2 rest2 h
      · simp only [improve, if_neg hw, if_neg himp, Prod.mk.injEq,
          Option.some.injEq] at h
        obtain ⟨rfl, rfl⟩ := h
        intro y hy
        exact (List.pairwise_cons.mp hp).1 y hy


theorem processBuffer_last [Timestamped T] (drop : Nat → Bool) (inf we : Nat)
    (b : Buffer T) : (processBuffer drop inf we b).2.last_ts = b.last_ts := by
  unfold processBuffer
  rcases hfc : findCandidate drop we b.buffer with ⟨copt, rest⟩
  cases copt <;> simp

theorem processBuffer_suffix [Timestamped T] (drop : Nat → Bool) (inf we : Nat)
    (b : Buffer T) :
    ∃ pre, b.buffer = pre ++ (processBuffer drop inf we b).2.buffer := by
  unfold processBuffer
  rcases hfc : findCandidate drop we b.buffer with ⟨copt, rest⟩
  cases copt with
  | none =>
    simp only
    rcases (findCandidate_spec drop we b.buffer).2 rest hfc with hr | ⟨pre, x, hl, _, _, _⟩
    · exact ⟨b.buffer, by simp [hr]⟩
    · exact ⟨pre ++ [x], by simp [hl]⟩
  | some cand =>
    simp only
    obtain ⟨⟨pre, hl, _⟩, _, _⟩ := (findCandidate_spec drop we b.buffer).1 cand rest hfc
    rcases himp : improve inf we cand (durationDiff inf (timestamp cand)) rest with
      ⟨c2opt, rest2⟩
    cases c2opt with
    | none =>
      have := (improve_spec inf we rest cand).1 rest2 himp
      subst this
      exact ⟨b.buffer, by simp⟩
    | some c2 =>
      obtain ⟨_, ⟨pre2, hpre2⟩, _, _⟩ := (improve_spec inf we rest cand).2 c2 rest2 himp
      exact ⟨pre ++ cand :: pre2, by simp [hl, hpre2]⟩

theorem processBuffer_cand [Timestamped T] (drop : Nat → Bool) (inf we : Nat)
    (b : Buffer T) (c : T)
    (h : (processBuffer drop inf we b).1 = some c) :
    c ∈ b.buffer ∧ timestamp c ≤ we ∧
    ∃ c0 ∈ b.buffer, drop (timestamp c0) = false ∧ timestamp c0 ≤ we ∧
      durationDiff inf (timestamp c) ≤ durationDiff inf (timestamp c0) := by
  unfold processBuffer at h
  rcases hfc : findCandidate drop we b.buffer with ⟨copt, rest⟩
  rw [hfc] at h
  cases copt with
  | none => simp at h
  | some cand =>
    simp only at h
    obtain ⟨⟨pre, hl, _⟩, hdrop, hwe⟩ := (findCandidate_spec drop we b.buffer).1 cand rest hfc
    rcases himp : improve inf we cand (durationDiff inf (timestamp cand)) rest with
      ⟨c2opt, rest2⟩
    rw [himp] at h
    cases c2opt with
    | none => simp at h
    | some c2 =>
      simp only [Option.some.injEq] at h
      rw [← h]
      obtain ⟨hm, _, hdd, hwe2⟩ := (improve_spec inf we rest cand).2 c2 rest2 himp
      have hcmem : c2 ∈ b.buffer := by
        rcases hm with rfl | hm2
        · rw [hl]
          exact List.mem_append_right _ (List.mem_cons_self _ _)
        · rw [hl]
          exact List.mem_append_right _ (List.mem_cons_of_mem _ hm2)
      have hcandmem : cand ∈ b.buffer := by
        rw [hl]
        exact List.mem_append_right _ (List.mem_cons_self _ _)
      exact ⟨hcmem, hwe2 hwe, cand, hcandmem, hdrop, hwe, hdd⟩

theorem processBuffer_some_rest [Timestamped T] (drop : Nat → Bool) (inf we : Nat)
    (b : Buffer T) (c : T)
    (hsorted : List.Pairwise (fun a c => timestamp a < timestamp c) b.buffer)
    (h : (processBuffer drop inf we b).1 = some c) :
    ∀ x ∈ (processBuffer drop inf we b).2.buffer, timestamp c < timestamp x := by
  unfold processBuffer at h ⊢
  rcases hfc : findCandidate drop we b.buffer with ⟨copt, rest⟩
  rw [hfc] at h
  cases copt with
  | none => simp at h
  | some cand =>
    simp only at h ⊢
    obtain ⟨⟨pre, hl, _⟩, _, _⟩ := (findCandidate_spec drop we b.buffer).1 cand rest hfc
    have hsorted2 : List.Pairwise (fun a c => timestamp a < timestamp c) (cand :: rest) := by
      rw [hl] at hsorted
      exact (List.pairwise_append.mp hsorted).2.1
    rcases himp : improve inf we cand (durationDiff inf (timestamp cand)) rest with
      ⟨c2opt, rest2⟩
    rw [himp] at h
    cases c2opt with
    | none => simp at h
    | some c2 =>
      simp only [Option.some.injEq] at h
      rw [← h]
      simp only
      exact improve_sorted inf we rest cand hsorted2 c2 rest2 himp

theorem processBuffer_none_rest [Timestamped T] (drop : Nat → Bool) (inf we : Nat)
    (b : Buffer T)
    (hsorted : List.Pairwise (fun a c => timestamp a < timestamp c) b.buffer)
    (h : (processBuffer drop inf we b).1 = none) :
    ∀ x ∈ (processBuffer drop inf we b).2.buffer, we < timestamp x := by
  rcases hfc : findCandidate drop we b.buffer with ⟨copt, rest⟩
  cases copt with
  | none =>
    have hpb : processBuffer drop inf we b =
        (none, { buffer := rest, last_ts := b.last_ts }) := by
      unfold processBuffer
      rw [hfc]
    rw [hpb]
    rcases (findCandidate_spec drop we b.buffer).2 rest hfc with hr | ⟨pre, x, hl, _, _, hx⟩
    · subst hr
      intro y hy
      cases hy
    · intro y hy
      have hsorted2 : List.Pairwise (fun a c => timestamp a < timestamp c) (x :: rest) := by
        rw [hl] at hsorted
        exact (List.pairwise_append.mp hsorted).2.1
      exact lt_trans hx ((List.pairwise_cons.mp hsorted2).1 y hy)
  | some cand =>
    rcases himp : improve inf we cand (durationDiff inf (timestamp cand)) rest with
      ⟨c2opt, rest2⟩
    have hpb : processBuffer drop inf we b =
        (c2opt, { buffer := rest2, last_ts := b.last_ts }) := by
      unfold processBuffer
      rw [hfc]
      simp only
      rw [himp]
    rw [hpb] at h
    cases c2opt with
    | none =>
      rw [hpb]
      have := (improve_spec inf we rest cand).1 rest2 himp
      subst this
      intro y hy
      cases hy
    | some c2 => simp at h

theorem processBuffer_front_inf [Timestamped T] (drop : Nat → Bool) (inf we : Nat)
    (b : Buffer T) (x : T) (rest : List T)
    (hb : b.buffer = x :: rest) (hrest : rest ≠ [])
    (hdrop : drop (timestamp x) = false) (hwe : ¬ we < timestamp x)
    (hdd : durationDiff inf (timestamp x) = 0) :
    (processBuffer drop inf we b).1 = some x := by
  have hfc : findCandidate drop we b.buffer = (some x, rest) := by
    rw [hb]
    simp [findCandidate, hdrop, hwe]
  unfold processBuffer
  rw [hfc]
  simp only
  cases rest with
  | nil => exact absurd rfl hrest
  | cons y rest2 =>
    rw [hdd]
    by_cases hwy : we < timestamp y
    · simp [improve, hwy]
    · simp [improve, hwy]


theorem minByAux_nat_le (l : List Nat) :
    ∀ a, minByAux compare a l ≤ a ∧ ∀ x ∈ l, minByAux compare a l ≤ x := by
  induction l with
  | nil =>
    intro a
    exact ⟨le_refl a, by simp⟩
  | cons x xs ih =>
    intro a
    simp only [minByAux]
    by_cases hc : compare x a = Ordering.lt
    · rw [if_pos hc]
      have hxa : x < a := Nat.compare_eq_lt.mp hc
      obtain ⟨h1, h2⟩ := ih x
      refine ⟨le_trans h1 (le_of_lt hxa), ?_⟩
      intro y hy
      rcases List.mem_cons.mp hy with rfl | hy2
      · exact h1
      · exact h2 y hy2
    · rw [if_neg hc]
      have hxa : a ≤ x := by
        rcases Nat.lt_or_ge x a with h1 | h1
        · exact absurd (Nat.compare_eq_lt.mpr h1) hc
        · exact h1
      obtain ⟨h1, h2⟩ := ih a
      refine ⟨h1, ?_⟩
      intro y hy
      rcases List.mem_cons.mp hy with rfl | hy2
      · exact le_trans h1 hxa
      · exact h2 y hy2

theorem minBy_nat_le (l : List Nat) (m : Nat) (h : minBy compare l = some m) :
    ∀ x ∈ l, m ≤ x := by
  cases l with
  | nil => simp [minBy] at h
  | cons x xs =>
    simp only [minBy, Option.some.injEq] at h
    subst h
    intro y hy
    rcases List.mem_cons.mp hy with rfl | hy2
    · exact (minByAux_nat_le xs y).1
    · exact (minByAux_nat_le xs x).2 y hy2

theorem minBy_nat_mem (l : List Nat) (m : Nat) (h : minBy compare l = some m) :
    m ∈ l := by
  cases l with
  | nil => simp [minBy] at h
  | cons x xs =>
    simp only [minBy, Option.some.injEq] at h
    subst h
    exact minByAux_mem compare xs x

theorem minBy_nat_of_ne_nil (l : List Nat) (h : l ≠ []) :
    ∃ m, minBy compare l = some m := by
  cases l with
  | nil => exact absurd rfl h
  | cons x xs => exact ⟨minByAux compare x xs, rfl⟩

theorem minTsOf_le [Timestamped T] (g : List (K × T)) (m : Nat)
    (h : minTsOf g = some m) : ∀ p ∈ g, m ≤ timestamp p.2 := by
  intro p hp
  exact minBy_nat_le _ m h (timestamp p.2)
    (List.mem_map.mpr ⟨p, hp, rfl⟩)

theorem minTsOf_mem [Timestamped T] (g : List (K × T)) (m : Nat)
    (h : minTsOf g = some m) : ∃ p ∈ g, timestamp p.2 = m := by
  have := minBy_nat_mem _ m h
  obtain ⟨p, hp, hpm⟩ := List.mem_map.mp this
  exact ⟨p, hp, hpm⟩

theorem minTsOf_of_ne_nil [Timestamped T] (g : List (K × T)) (h : g ≠ []) :
    ∃ m, minTsOf g = some m := by
  apply minBy_nat_of_ne_nil
  simpa using h

theorem try_match_gate [Timestamped T] (s : State K T) (inf sup : Nat)
    (hinf : s.inf_timestamp = some inf) (hsup : s.sup_timestamp = some sup)
    (hgate : inf + s.window_size ≤ sup) :
    s.try_match =
      match minTsOf (tmItems s inf) with
      | none => Except.error ()
      | some m => Except.ok (some (tmItems s inf),
          { s with buffers := tmBuffers s inf, commit_ts := some m }) := by
  unfold State.try_match
  rw [hinf, hsup]
  dsimp only
  rw [if_pos hgate]
  rfl

theorem try_match_no_gate [Timestamped T] (s : State K T)
    (h : (∀ i, s.inf_timestamp ≠ some i) ∨ (∀ j, s.sup_timestamp ≠ some j) ∨
      (∀ i j, s.inf_timestamp = some i → s.sup_timestamp = some j →
        ¬ i + s.window_size ≤ j)) :
    s.try_match = Except.ok (none, s) := by
  unfold State.try_match
  cases hinf : s.inf_timestamp with
  | none => rfl
  | some i =>
    cases hsup : s.sup_timestamp with
    | none => rfl
    | some j =>
      rcases h with h1 | h2 | h3
      · exact absurd hinf (h1 i)
      · exact absurd hsup (h2 j)
      · dsimp only
        rw [if_neg (h3 i j hinf hsup)]


theorem tmItems_mem_of_processed [Timestamped T] (s : State K T) (inf : Nat)
    (kb : K × Buffer T) (hkb : kb ∈ s.buffers) (c : T)
    (hc : (processBuffer (inDropRange s.commit_ts (inf - s.window_size)) inf
      (inf + s.window_size) kb.2).1 = some c) :
    (kb.1, c) ∈ tmItems s inf := by
  unfold tmItems tmResults
  refine List.mem_filterMap.mpr
    ⟨(kb.1, processBuffer (inDropRange s.commit_ts (inf - s.window_size)) inf
      (inf + s.window_size) kb.2), ?_, ?_⟩
  · exact List.mem_map.mpr ⟨kb, hkb, rfl⟩
  · simp [hc]

theorem tmItems_mem_inv [Timestamped T] (s : State K T) (inf : Nat) (p : K × T)
    (hp : p ∈ tmItems s inf) :
    ∃ kb ∈ s.buffers, p.1 = kb.1 ∧
      (processBuffer (inDropRange s.commit_ts (inf - s.window_size)) inf
        (inf + s.window_size) kb.2).1 = some p.2 := by
  unfold tmItems tmResults at hp
  obtain ⟨kr, hkr, hmap⟩ := List.mem_filterMap.mp hp
  obtain ⟨kb, hkb, rfl⟩ := List.mem_map.mp hkr
  cases hpb : (processBuffer (inDropRange s.commit_ts (inf - s.window_size)) inf
      (inf + s.window_size) kb.2).1 with
  | none =>
    rw [hpb] at hmap
    simp at hmap
  | some c =>
    rw [hpb] at hmap
    simp only [Option.map_some', Option.some.injEq] at hmap
    subst hmap
    exact ⟨kb, hkb, rfl, hpb⟩

/-- Claim C9: the `unwrap` inside `try_match` is unreachable on
well-formed states with a positive window: whenever the admission gate
passes, the key attaining `inf` always contributes a candidate, so the
collected group is non-empty and `try_match` never hits the error case. -/
theorem C9_no_panic [Timestamped T] (s : State K T)
    (hw : 0 < s.window_size) (hwf : StateWF s) :
    ∀ e : Unit, s.try_match ≠ Except.error e := by
  intro e
  cases hinf : s.inf_timestamp with
  | none =>
    rw [try_match_no_gate s (Or.inl (fun i hi => by rw [hinf] at hi; cases hi))]
    simp
  | some inf =>
    cases hsup : s.sup_timestamp with
    | none =>
      rw [try_match_no_gate s (Or.inr (Or.inl (fun j hj => by rw [hsup] at hj; cases hj)))]
      simp
    | some sup =>
      by_cases hgate : inf + s.window_size ≤ sup
      · rw [try_match_gate s inf sup hinf hsup hgate]
        have hne_all : ∀ kb ∈ s.buffers, kb.2.buffer ≠ [] := by
          intro kb hkb hkbe
          have := inf_timestamp_none_of_empty s ⟨kb, hkb, hkbe⟩
          rw [hinf] at this
          cases this
        obtain ⟨kbI, hkbImem, hfront⟩ := inf_timestamp_mem s inf hinf
        cases hb : kbI.2.buffer with
        | nil => exact absurd hb (hne_all kbI hkbImem)
        | cons x rest =>
          have hx : timestamp x = inf := by
            have := hfront
            rw [Buffer.frontTs, hb] at this
            simpa using this
          have hnn : s.buffers ≠ [] := List.ne_nil_of_mem hkbImem
          obtain ⟨m2, hm2, _, hbd⟩ := sup_timestamp_char s hnn hne_all
          rw [hsup] at hm2
          injection hm2 with hm2e
          subst hm2e
          obtain ⟨bt, hbt⟩ := Buffer.backTs_of_nonempty kbI.2 (hne_all kbI hkbImem)
          have hsupbt : sup ≤ bt := hbd kbI hkbImem bt hbt
          have hrest : rest ≠ [] := by
            intro hre
            subst hre
            have hlx : kbI.2.backTs = some inf := by
              rw [Buffer.backTs, hb]
              simp [hx]
            rw [hlx] at hbt
            injection hbt with hbte
            omega
          have hdrop : inDropRange s.commit_ts (inf - s.window_size) (timestamp x) =
              false := by
            rw [hx]
            obtain ⟨_, hcomm, _⟩ := hwf kbI hkbImem
            have hcx := hcomm x (by rw [hb]; exact List.mem_cons_self _ _)
            rw [hx] at hcx
            cases hcs : s.commit_ts with
            | none =>
              simp only [inDropRange, decide_eq_false_iff_not]
              omega
            | some c =>
              rw [hcs] at hcx
              simp only [commitLt] at hcx
              simp only [inDropRange]
              split
              · simp only [decide_eq_false_iff_not]
                omega
              · simp only [decide_eq_false_iff_not]
                omega
          have hwe : ¬ (inf + s.window_size) < timestamp x := by
            rw [hx]
            omega
          have hdd : durationDiff inf (timestamp x) = 0 := by
            rw [hx]
            simp [durationDiff]
          have hpb := processBuffer_front_inf
            (inDropRange s.commit_ts (inf - s.window_size)) inf (inf + s.window_size)
            kbI.2 x rest hb hrest hdrop hwe hdd
          have hmem := tmItems_mem_of_processed s inf kbI hkbImem x hpb
          have hne : tmItems s inf ≠ [] := List.ne_nil_of_mem hmem
          obtain ⟨m, hm⟩ := minTsOf_of_ne_nil _ hne
          rw [hm]
          simp
      · rw [try_match_no_gate s (Or.inr (Or.inr (fun i j hi hj => by
          rw [hinf] at hi
          rw [hsup] at hj
          cases hi
          cases hj
          exact hgate)))]
        simp

/-- Witness for C9_no_panic at a concrete well-formed state. -/
theorem C9_no_panic_witness :
    stateW.try_match ≠ Except.error () :=
  C9_no_panic stateW (by decide) (by decide) ()


theorem processBuffer_cand_window [Timestamped T] (s : State K T) (inf : Nat)
    (kb : K × Buffer T) (hkb : kb ∈ s.buffers) (hwf : StateWF s) (c : T)
    (hc : (processBuffer (inDropRange s.commit_ts (inf - s.window_size)) inf
      (inf + s.window_size) kb.2).1 = some c) :
    commitLt s.commit_ts (timestamp c) ∧
    inf ≤ timestamp c + s.window_size ∧ timestamp c ≤ inf + s.window_size := by
  obtain ⟨hcmem, hcwe, c0, hc0mem, hc0drop, hc0we, hdd⟩ :=
    processBuffer_cand (inDropRange s.commit_ts (inf - s.window_size)) inf
      (inf + s.window_size) kb.2 c hc
  obtain ⟨_, hcomm, _⟩ := hwf kb hkb
  refine ⟨hcomm c hcmem, ?_⟩
  have hws : inf - s.window_size ≤ timestamp c0 := inDropRange_false_ge _ _ _ hc0drop
  have hdd0 : durationDiff inf (timestamp c0) ≤ s.window_size := by
    rw [durationDiff_le_iff]
    omega
  have hddc : durationDiff inf (timestamp c) ≤ s.window_size := le_trans hdd hdd0
  rw [durationDiff_le_iff] at hddc
  exact hddc

/-- Claim C6: every group emitted by `try_match` from a well-formed state
has timestamp spread at most twice the window size, and every timestamp in
the group is strictly above the watermark held before the call. -/
theorem C6_group_window [Timestamped T] (s : State K T) (g : List (K × T))
    (s2 : State K T) (hwf : StateWF s)
    (h : s.try_match = Except.ok (some g, s2)) :
    (∀ p ∈ g, ∀ q ∈ g, timestamp p.2 ≤ timestamp q.2 + 2 * s.window_size) ∧
    (∀ p ∈ g, commitLt s.commit_ts (timestamp p.2)) := by
  cases hinf : s.inf_timestamp with
  | none =>
    rw [try_match_no_gate s (Or.inl (fun i hi => by rw [hinf] at hi; cases hi))] at h
    simp at h
  | some inf =>
    cases hsup : s.sup_timestamp with
    | none =>
      rw [try_match_no_gate s
        (Or.inr (Or.inl (fun j hj => by rw [hsup] at hj; cases hj)))] at h
      simp at h
    | some sup =>
      by_cases hgate : inf + s.window_size ≤ sup
      · rw [try_match_gate s inf sup hinf hsup hgate] at h
        cases hm : minTsOf (tmItems s inf) with
        | none =>
          rw [hm] at h
          cases h
        | some m =>
          rw [hm] at h
          simp only [Except.ok.injEq, Prod.mk.injEq, Option.some.injEq] at h
          obtain ⟨hg, _⟩ := h
          subst hg
          have hbound : ∀ p ∈ tmItems s inf,
              commitLt s.commit_ts (timestamp p.2) ∧
              inf ≤ timestamp p.2 + s.window_size ∧
              timestamp p.2 ≤ inf + s.window_size := by
            intro p hp
            obtain ⟨kb, hkb, _, hpb⟩ := tmItems_mem_inv s inf p hp
            exact processBuffer_cand_window s inf kb hkb hwf p.2 hpb
          constructor
          · intro p hp q hq
            obtain ⟨_, hp1, hp2⟩ := hbound p hp
            obtain ⟨_, hq1, hq2⟩ := hbound q hq
            omega
          · intro p hp
            exact (hbound p hp).1
      · rw [try_match_no_gate s (Or.inr (Or.inr (fun i j hi hj => by
          rw [hinf] at hi
          rw [hsup] at hj
          cases hi
          cases hj
          exact hgate)))] at h
        simp at h

/-- Witness for C6_group_window at a concrete matching state. -/
theorem C6_group_window_witness :
    (∀ p ∈ [((0 : Nat), (3 : Nat)), (1, 4)], ∀ q ∈ [((0 : Nat), (3 : Nat)), (1, 4)],
      timestamp p.2 ≤ timestamp q.2 + 2 * stateW.window_size) ∧
    (∀ p ∈ [((0 : Nat), (3 : Nat)), (1, 4)], commitLt stateW.commit_ts (timestamp p.2)) :=
  C6_group_window stateW [(0, 3), (1, 4)] stateWAfter (by decide) rfl


theorem try_match_ok_none [Timestamped T] (s : State K T) (s2 : State K T)
    (h : s.try_match = Except.ok (none, s2)) : s2 = s := by
  cases hinf : s.inf_timestamp with
  | none =>
    rw [try_match_no_gate s (Or.inl (fun i hi => by rw [hinf] at hi; cases hi))] at h
    simp only [Except.ok.injEq, Prod.mk.injEq] at h
    exact h.2.symm
  | some inf =>
    cases hsup : s.sup_timestamp with
    | none =>
      rw [try_match_no_gate s
        (Or.inr (Or.inl (fun j hj => by rw [hsup] at hj; cases hj)))] at h
      simp only [Except.ok.injEq, Prod.mk.injEq] at h
      exact h.2.symm
    | some sup =>
      by_cases hgate : inf + s.window_size ≤ sup
      · rw [try_match_gate s inf sup hinf hsup hgate] at h
        cases hm : minTsOf (tmItems s inf) with
        | none =>
          rw [hm] at h
          cases h
        | some m =>
          rw [hm] at h
          simp at h
      · rw [try_match_no_gate s (Or.inr (Or.inr (fun i j hi hj => by
          rw [hinf] at hi
          rw [hsup] at hj
          cases hi
          cases hj
          exact hgate)))] at h
        simp only [Except.ok.injEq, Prod.mk.injEq] at h
        exact h.2.symm

theorem tmBuffers_mem_inv [Timestamped T] (s : State K T) (inf : Nat)
    (kb2 : K × Buffer T) (h : kb2 ∈ tmBuffers s inf) :
    ∃ kb ∈ s.buffers, kb2 = (kb.1,
      (processBuffer (inDropRange s.commit_ts (inf - s.window_size)) inf
        (inf + s.window_size) kb.2).2) := by
  unfold tmBuffers tmResults at h
  rw [List.map_map] at h
  obtain ⟨kb, hkb, hkb2⟩ := List.mem_map.mp h
  exact ⟨kb, hkb, hkb2.symm⟩

theorem try_match_ok_some [Timestamped T] (s : State K T) (g : List (K × T))
    (s2 : State K T) (hwf : StateWF s)
    (h : s.try_match = Except.ok (some g, s2)) :
    ∃ m, minTsOf g = some m ∧ s2.commit_ts = some m ∧
      commitLt s.commit_ts m ∧ StateWF s2 := by
  cases hinf : s.inf_timestamp with
  | none =>
    rw [try_match_no_gate s (Or.inl (fun i hi => by rw [hinf] at hi; cases hi))] at h
    simp at h
  | some inf =>
    cases hsup : s.sup_timestamp with
    | none =>
      rw [try_match_no_gate s
        (Or.inr (Or.inl (fun j hj => by rw [hsup] at hj; cases hj)))] at h
      simp at h
    | some sup =>
      by_cases hgate : inf + s.window_size ≤ sup
      · rw [try_match_gate s inf sup hinf hsup hgate] at h
        cases hm : minTsOf (tmItems s inf) with
        | none =>
          rw [hm] at h
          cases h
        | some m =>
          rw [hm] at h
          simp only [Except.ok.injEq, Prod.mk.injEq, Option.some.injEq] at h
          obtain ⟨hg, hs2⟩ := h
          subst hg
          refine ⟨m, hm, by rw [← hs2], ?_, ?_⟩
          · obtain ⟨p, hp, hpm⟩ := minTsOf_mem _ m hm
            obtain ⟨kb, hkb, _, hpb⟩ := tmItems_mem_inv s inf p hp
            obtain ⟨hpmem, _, _⟩ := processBuffer_cand _ inf _ kb.2 p.2 hpb
            obtain ⟨_, hcomm, _⟩ := hwf kb hkb
            rw [← hpm]
            exact hcomm p.2 hpmem
          · rw [← hs2]
            intro kb2 hkb2
            simp only at hkb2
            obtain ⟨kb, hkb, hkb2eq⟩ := tmBuffers_mem_inv s inf kb2 hkb2
            subst hkb2eq
            obtain ⟨hsort, hcomm, hlast⟩ := hwf kb hkb
            obtain ⟨pre, hpre⟩ := processBuffer_suffix
              (inDropRange s.commit_ts (inf - s.window_size)) inf
              (inf + s.window_size) kb.2
            have hsub : (processBuffer (inDropRange s.commit_ts (inf - s.window_size))
                inf (inf + s.window_size) kb.2).2.buffer.Sublist kb.2.buffer := by
              rw [hpre]
              exact List.sublist_append_right _ _
            refine ⟨hsort.sublist hsub, ?_, ?_⟩
            · intro t ht
              simp only [commitLt]
              cases hpb : (processBuffer (inDropRange s.commit_ts (inf - s.window_size))
                  inf (inf + s.window_size) kb.2).1 with
              | some c =>
                have hct := processBuffer_some_rest _ inf _ kb.2 c hsort hpb t ht
                have hcm : m ≤ timestamp c := by
                  have hcmem := tmItems_mem_of_processed s inf kb hkb c hpb
                  exact minTsOf_le _ m hm (kb.1, c) hcmem
                omega
              | none =>
                have hct := processBuffer_none_rest _ inf _ kb.2 hsort hpb t ht
                obtain ⟨p, hp, hpm⟩ := minTsOf_mem _ m hm
                obtain ⟨kb3, hkb3, _, hpb3⟩ := tmItems_mem_inv s inf p hp
                obtain ⟨_, hpwe, _⟩ := processBuffer_cand _ inf _ kb3.2 p.2 hpb3
                omega
            · intro t ht
              rw [processBuffer_last]
              exact hlast t (hsub.mem ht)
      · rw [try_match_no_gate s (Or.inr (Or.inr (fun i j hi hj => by
          rw [hinf] at hi
          rw [hsup] at hj
          cases hi
          cases hj
          exact hgate)))] at h
        simp at h

theorem push_commit_eq [DecidableEq K] [Timestamped T] (s : State K T) (k : K) (t : T) :
    (s.push k t).2.commit_ts = s.commit_ts := by
  unfold State.push
  split
  · split
    · rfl
    · unfold State.pushAux
      split <;> rfl
  · unfold State.pushAux
    split <;> rfl

theorem drop_min_commit_eq [Timestamped T] (s : State K T) :
    s.drop_min.2.commit_ts = s.commit_ts := by
  unfold State.drop_min
  split <;> rfl

theorem update_feedback_commit_eq (s : State K T) (ok : Bool) :
    (s.update_feedback ok).2.commit_ts = s.commit_ts := by
  unfold State.update_feedback
  split
  · split <;> rfl
  · rfl

theorem update_feedback_buffers_eq (s : State K T) (ok : Bool) :
    (s.update_feedback ok).2.buffers = s.buffers := by
  unfold State.update_feedback
  split
  · split <;> rfl
  · rfl


theorem try_push_BufferWF [Timestamped T] (commit : Option Nat) (b : Buffer T)
    (item : T) (hwfb : BufferWF commit b)
    (hcommit : commitLt commit (timestamp item)) :
    BufferWF commit (b.try_push item).2 := by
  obtain ⟨hsort, hcomm, hlast⟩ := hwfb
  cases hl : b.last_ts with
  | none =>
    have hemp : ∀ x ∈ b.buffer, False := by
      intro x hx
      have := hlast x hx
      rw [hl] at this
      exact this
    simp only [Buffer.try_push, hl]
    refine ⟨?_, ?_, ?_⟩
    · rw [List.pairwise_append]
      refine ⟨hsort, by simp, ?_⟩
      intro x hx
      exact absurd (hemp x hx) not_false
    · intro t ht
      rcases List.mem_append.mp ht with ht2 | ht2
      · exact hcomm t ht2
      · rw [List.mem_singleton.mp ht2]
        exact hcommit
    · intro t ht
      simp only [leOfLast]
      rcases List.mem_append.mp ht with ht2 | ht2
      · exact absurd (hemp t ht2) not_false
      · rw [List.mem_singleton.mp ht2]
  | some l =>
    by_cases hle : timestamp item ≤ l
    · simp only [Buffer.try_push, hl, if_pos hle]
      exact ⟨hsort, hcomm, hlast⟩
    · simp only [Buffer.try_push, hl, if_neg hle]
      have hballlt : ∀ x ∈ b.buffer, timestamp x < timestamp item := by
        intro x hx
        have := hlast x hx
        rw [hl] at this
        simp only [leOfLast] at this
        omega
      refine ⟨?_, ?_, ?_⟩
      · rw [List.pairwise_append]
        refine ⟨hsort, by simp, ?_⟩
        intro x hx y hy
        rw [List.mem_singleton.mp hy]
        exact hballlt x hx
      · intro t ht
        rcases List.mem_append.mp ht with ht2 | ht2
        · exact hcomm t ht2
        · rw [List.mem_singleton.mp ht2]
          exact hcommit
      · intro t ht
        simp only [leOfLast]
        rcases List.mem_append.mp ht with ht2 | ht2
        · exact le_of_lt (hballlt t ht2)
        · rw [List.mem_singleton.mp ht2]

theorem push_WF [DecidableEq K] [Timestamped T] (s : State K T) (k : K) (t : T)
    (hwf : StateWF s) : StateWF (s.push k t).2 := by
  have haux : commitLt s.commit_ts (timestamp t) → StateWF (s.pushAux k t).2 := by
    intro hcommit
    cases hp : pushIntoBuffers t k s.buffers with
    | none =>
      unfold State.pushAux
      rw [hp]
      exact hwf
    | some r =>
      obtain ⟨pre, b, post, hbuf, hpre, hr⟩ := pushIntoBuffers_some_decomp t k _ r hp
      unfold State.pushAux
      rw [hp]
      subst hr
      intro kb hkb
      simp only at hkb
      rcases List.mem_append.mp hkb with hkb2 | hkb2
      · exact hwf kb (by rw [hbuf]; exact List.mem_append_left _ hkb2)
      · rcases List.mem_cons.mp hkb2 with rfl | hkb3
        · have hbmem : (k, b) ∈ s.buffers := by
            rw [hbuf]
            exact List.mem_append_right _ (List.mem_cons_self _ _)
          exact try_push_BufferWF s.commit_ts b t (hwf (k, b) hbmem) hcommit
        · exact hwf kb (by
            rw [hbuf]
            exact List.mem_append_right _ (List.mem_cons_of_mem _ hkb3))
  cases hc : s.commit_ts with
  | none =>
    unfold State.push
    rw [hc]
    dsimp only
    apply haux
    rw [hc]
    simp [commitLt]
  | some c =>
    unfold State.push
    rw [hc]
    dsimp only
    by_cases hle : timestamp t ≤ c
    · rw [if_pos hle]
      exact hwf
    · rw [if_neg hle]
      apply haux
      rw [hc]
      simp only [commitLt]
      omega

theorem drop_min_WF [Timestamped T] (s : State K T) (hwf : StateWF s) :
    StateWF s.drop_min.2 := by
  cases hm : s.min_timestamp with
  | none =>
    unfold State.drop_min
    rw [hm]
    exact hwf
  | some m =>
    unfold State.drop_min
    rw [hm]
    intro kb2 hkb2
    simp only at hkb2
    obtain ⟨kb, hkb, hkb2eq⟩ := List.mem_map.mp hkb2
    subst hkb2eq
    obtain ⟨hsort, hcomm, hlast⟩ := hwf kb hkb
    have hsub : (dropFrontIfMin m kb.2).buffer.Sublist kb.2.buffer := by
      unfold dropFrontIfMin
      split
      · exact List.Sublist.refl _
      · rename_i x rest heq
        split
        · rw [heq]
          exact List.sublist_cons_self _ _
        · exact List.Sublist.refl _
    have hlasteq : (dropFrontIfMin m kb.2).last_ts = kb.2.last_ts := by
      unfold dropFrontIfMin
      split
      · rfl
      · split <;> rfl
    refine ⟨hsort.sublist hsub, ?_, ?_⟩
    · intro x hx
      exact hcomm x (hsub.mem hx)
    · intro x hx
      rw [hlasteq]
      exact hlast x (hsub.mem hx)

theorem update_feedback_WF [Timestamped T] (s : State K T) (ok : Bool)
    (hwf : StateWF s) : StateWF (s.update_feedback ok).2 := by
  unfold StateWF at hwf ⊢
  rw [update_feedback_buffers_eq, update_feedback_commit_eq]
  exact hwf


theorem SyncOp_WF [DecidableEq K] [Timestamped T] (op : SyncOp K T) (s : State K T)
    (hwf : StateWF s) : StateWF (op.apply s).1 := by
  cases op with
  | push k t => exact push_WF s k t hwf
  | tryMatch =>
    dsimp only [SyncOp.apply]
    cases htm : s.try_match with
    | error e => exact hwf
    | ok r =>
      obtain ⟨og, s2⟩ := r
      cases og with
      | none =>
        have hs2 := try_match_ok_none s s2 htm
        subst hs2
        exact hwf
      | some g =>
        obtain ⟨m, _, _, _, hwf2⟩ := try_match_ok_some s g s2 hwf htm
        exact hwf2
  | dropMin => exact drop_min_WF s hwf
  | feedback ok => exact update_feedback_WF s ok hwf

theorem SyncOp_commit_le [DecidableEq K] [Timestamped T] (op : SyncOp K T)
    (s : State K T) (hwf : StateWF s) (c : Nat) (hc : s.commit_ts = some c) :
    ∃ c2, (op.apply s).1.commit_ts = some c2 ∧ c ≤ c2 := by
  cases op with
  | push k t =>
    refine ⟨c, ?_, le_refl c⟩
    dsimp only [SyncOp.apply]
    rw [push_commit_eq]
    exact hc
  | dropMin =>
    refine ⟨c, ?_, le_refl c⟩
    dsimp only [SyncOp.apply]
    rw [drop_min_commit_eq]
    exact hc
  | feedback ok =>
    refine ⟨c, ?_, le_refl c⟩
    dsimp only [SyncOp.apply]
    rw [update_feedback_commit_eq]
    exact hc
  | tryMatch =>
    dsimp only [SyncOp.apply]
    cases htm : s.try_match with
    | error e => exact ⟨c, hc, le_refl c⟩
    | ok r =>
      obtain ⟨og, s2⟩ := r
      cases og with
      | none =>
        have hs2 := try_match_ok_none s s2 htm
        subst hs2
        exact ⟨c, hc, le_refl c⟩
      | some g =>
        obtain ⟨m, _, hcommit2, hlt, _⟩ := try_match_ok_some s g s2 hwf htm
        refine ⟨m, hcommit2, ?_⟩
        rw [hc] at hlt
        simp only [commitLt] at hlt
        omega

theorem SyncOp_emit [DecidableEq K] [Timestamped T] (op : SyncOp K T)
    (s : State K T) (hwf : StateWF s) (g : List (K × T))
    (hg : (op.apply s).2 = some g) :
    ∃ m, minTsOf g = some m ∧ commitLt s.commit_ts m ∧
      (op.apply s).1.commit_ts = some m := by
  cases op with
  | push k t => simp [SyncOp.apply] at hg
  | dropMin => simp [SyncOp.apply] at hg
  | feedback ok => simp [SyncOp.apply] at hg
  | tryMatch =>
    dsimp only [SyncOp.apply] at hg ⊢
    cases htm : s.try_match with
    | error e =>
      rw [htm] at hg
      simp at hg
    | ok r =>
      obtain ⟨og, s2⟩ := r
      rw [htm] at hg
      cases og with
      | none => simp at hg
      | some g2 =>
        simp only [Option.some.injEq] at hg
        subst hg
        obtain ⟨m, hm, hcommit2, hlt, _⟩ := try_match_ok_some s g2 s2 hwf htm
        exact ⟨m, hm, hlt, hcommit2⟩

theorem runSyncOps_spec [DecidableEq K] [Timestamped T] :
    ∀ (ops : List (SyncOp K T)) (s : State K T), StateWF s →
      StateWF (runSyncOps ops s).1 ∧
      (∀ c, s.commit_ts = some c →
        ∃ c2, (runSyncOps ops s).1.commit_ts = some c2 ∧ c ≤ c2) ∧
      (∀ g ∈ (runSyncOps ops s).2, ∃ m, minTsOf g = some m ∧ commitLt s.commit_ts m) ∧
      List.Chain' (fun g1 g2 => ∀ m1, minTsOf g1 = some m1 →
        ∃ m2, minTsOf g2 = some m2 ∧ m1 ≤ m2) (runSyncOps ops s).2 := by
  intro ops
  induction ops with
  | nil =>
    intro s hwf
    exact ⟨hwf, fun c hc => ⟨c, hc, le_refl c⟩, by simp [runSyncOps], by
      simp [runSyncOps]⟩
  | cons op rest ih =>
    intro s hwf
    have hwf1 : StateWF (op.apply s).1 := SyncOp_WF op s hwf
    obtain ⟨ihwf, ihcomm, ihgrp, ihchain⟩ := ih (op.apply s).1 hwf1
    have hcommlift : ∀ c, s.commit_ts = some c →
        ∃ c2, (runSyncOps rest (op.apply s).1).1.commit_ts = some c2 ∧ c ≤ c2 := by
      intro c hc
      obtain ⟨c1, hc1, hcle⟩ := SyncOp_commit_le op s hwf c hc
      obtain ⟨c2, hc2, hcle2⟩ := ihcomm c1 hc1
      exact ⟨c2, hc2, le_trans hcle hcle2⟩
    cases hog : (op.apply s).2 with
    | none =>
      have hrun : runSyncOps (op :: rest) s = runSyncOps rest (op.apply s).1 := by
        have heq : runSyncOps (op :: rest) s =
            match (op.apply s).2 with
            | some g => ((runSyncOps rest (op.apply s).1).1,
                g :: (runSyncOps rest (op.apply s).1).2)
            | none => runSyncOps rest (op.apply s).1 := rfl
        rw [heq, hog]
      rw [hrun]
      refine ⟨ihwf, hcommlift, ?_, ihchain⟩
      intro g hg
      obtain ⟨m, hm, hcm⟩ := ihgrp g hg
      refine ⟨m, hm, ?_⟩
      cases hc : s.commit_ts with
      | none => simp [commitLt]
      | some c =>
        obtain ⟨c1, hc1, hcle⟩ := SyncOp_commit_le op s hwf c hc
        rw [hc1] at hcm
        simp only [commitLt] at hcm ⊢
        omega
    | some g =>
      have hrun : runSyncOps (op :: rest) s =
          ((runSyncOps rest (op.apply s).1).1,
            g :: (runSyncOps rest (op.apply s).1).2) := by
        have heq : runSyncOps (op :: rest) s =
            match (op.apply s).2 with
            | some g2 => ((runSyncOps rest (op.apply s).1).1,
                g2 :: (runSyncOps rest (op.apply s).1).2)
            | none => runSyncOps rest (op.apply s).1 := rfl
        rw [heq, hog]
      rw [hrun]
      obtain ⟨m, hgm, hglt, hcommit1⟩ := SyncOp_emit op s hwf g hog
      refine ⟨ihwf, hcommlift, ?_, ?_⟩
      · intro g2 hg2
        rcases List.mem_cons.mp hg2 with rfl | hg3
        · exact ⟨m, hgm, hglt⟩
        · obtain ⟨m2, hm2, hcm2⟩ := ihgrp g2 hg3
          refine ⟨m2, hm2, ?_⟩
          rw [hcommit1] at hcm2
          simp only [commitLt] at hcm2
          cases hc : s.commit_ts with
          | none => simp [commitLt]
          | some c =>
            rw [hc] at hglt
            simp only [commitLt] at hglt ⊢
            omega
      · cases hgrps : (runSyncOps rest (op.apply s).1).2 with
        | nil => simp
        | cons g2 grps2 =>
          rw [List.chain'_cons]
          constructor
          · intro m1 hm1
            rw [hgm] at hm1
            injection hm1 with hm1e
            subst hm1e
            have hg2mem : g2 ∈ (runSyncOps rest (op.apply s).1).2 := by
              rw [hgrps]
              exact List.mem_cons_self _ _
            obtain ⟨m2, hm2, hcm2⟩ := ihgrp g2 hg2mem
            rw [hcommit1] at hcm2
            simp only [commitLt] at hcm2
            exact ⟨m2, hm2, le_of_lt hcm2⟩
          · rw [← hgrps]
            exact ihchain

/-- Claim C5: `commit_ts` never decreases under any state operation
(push, try_match, drop_min, update_feedback), and along any operation
sequence the commit stamps of successively emitted groups form a
non-decreasing sequence. -/
theorem C5_commit_monotone [DecidableEq K] [Timestamped T] :
    (∀ (op : SyncOp K T) (s : State K T), StateWF s →
      ∀ c, s.commit_ts = some c →
        ∃ c2, (op.apply s).1.commit_ts = some c2 ∧ c ≤ c2) ∧
    (∀ (ops : List (SyncOp K T)) (s : State K T), StateWF s →
      List.Chain' (fun g1 g2 => ∀ m1, minTsOf g1 = some m1 →
        ∃ m2, minTsOf g2 = some m2 ∧ m1 ≤ m2) (runSyncOps ops s).2) :=
  ⟨fun op s hwf c hc => SyncOp_commit_le op s hwf c hc,
   fun ops s hwf => (runSyncOps_spec ops s hwf).2.2.2⟩

/-- Witness for C5_commit_monotone with a concrete matching step. -/
theorem C5_commit_monotone_witness :
    (∃ c2, ((SyncOp.tryMatch : SyncOp Nat Nat).apply stateW).1.commit_ts = some c2 ∧
      1 ≤ c2) ∧
    List.Chain' (fun g1 g2 => ∀ m1, minTsOf g1 = some m1 →
      ∃ m2, minTsOf g2 = some m2 ∧ m1 ≤ m2)
      (runSyncOps [SyncOp.tryMatch] stateW).2 :=
  ⟨(C5_commit_monotone (K := Nat) (T := Nat)).1 SyncOp.tryMatch stateW (by decide) 1 rfl,
   (C5_commit_monotone (K := Nat) (T := Nat)).2 [SyncOp.tryMatch] stateW (by decide)⟩


theorem try_push_res_ok [Timestamped T] (b : Buffer T) (item : T) (b2 : Buffer T)
    (h : b.try_push_res item = Except.ok b2) :
    b2.buffer = b.buffer ++ [item] ∧ b2.last_ts = some (timestamp item) ∧
    (∀ l, b.last_ts = some l → l < timestamp item) := by
  cases hl : b.last_ts with
  | none =>
    simp only [Buffer.try_push_res, hl, Except.ok.injEq] at h
    subst h
    refine ⟨rfl, rfl, ?_⟩
    intro l hle
    cases hle
  | some l =>
    by_cases hle : timestamp item ≤ l
    · simp [Buffer.try_push_res, hl, hle] at h
    · simp only [Buffer.try_push_res, hl, if_neg hle, Except.ok.injEq] at h
      subst h
      refine ⟨rfl, rfl, ?_⟩
      intro l2 hl2
      injection hl2 with hl2e
      omega

theorem try_push_res_error [Timestamped T] (b : Buffer T) (item it2 : T)
    (h : b.try_push_res item = Except.error it2) :
    ∃ l, b.last_ts = some l ∧ timestamp item ≤ l := by
  cases hl : b.last_ts with
  | none => simp [Buffer.try_push_res, hl] at h
  | some l =>
    by_cases hle : timestamp item ≤ l
    · exact ⟨l, rfl, hle⟩
    · simp [Buffer.try_push_res, hl, hle] at h

theorem getLast_cons_or (a : Nat) (l : List Nat) :
    (a :: l).getLast? = l.getLast?.or (some a) := by
  cases l with
  | nil => rfl
  | cons b l2 =>
    rw [List.getLast?_cons_cons]
    cases hg : (b :: l2).getLast? with
    | none =>
      rw [List.getLast?_eq_none_iff] at hg
      cases hg
    | some x => rfl

theorem getLast_mem_nat (l : List Nat) (m : Nat) (h : l.getLast? = some m) :
    m ∈ l := by
  induction l with
  | nil => simp at h
  | cons a l2 ih =>
    rw [getLast_cons_or] at h
    cases hg : l2.getLast? with
    | none =>
      rw [hg] at h
      simp only [Option.none_or, Option.some.injEq] at h
      subst h
      exact List.mem_cons_self _ _
    | some x =>
      rw [hg] at h
      injection h with he
      subst he
      exact List.mem_cons_of_mem _ (ih hg)

theorem pairwise_lt_getLast (l : List Nat)
    (hp : List.Pairwise (fun a c : Nat => a < c) l) (x : Nat) (hx : x ∈ l) (m : Nat)
    (hm : l.getLast? = some m) : x ≤ m := by
  induction l with
  | nil => simp at hx
  | cons a l2 ih =>
    rw [getLast_cons_or] at hm
    cases hg : l2.getLast? with
    | none =>
      rw [hg] at hm
      simp only [Option.none_or, Option.some.injEq] at hm
      subst hm
      rw [List.getLast?_eq_none_iff] at hg
      subst hg
      simp only [List.mem_singleton] at hx
      exact le_of_eq hx
    | some y =>
      rw [hg] at hm
      injection hm with hme
      subst hme
      rcases List.mem_cons.mp hx with rfl | hx2
      · exact le_of_lt ((List.pairwise_cons.mp hp).1 _ (getLast_mem_nat l2 _ hg))
      · exact ih (List.pairwise_cons.mp hp).2 hx2 hg

theorem pop_front_BufferWF [Timestamped T] (commit : Option Nat) (b : Buffer T)
    (hwf : BufferWF commit b) : BufferWF commit b.pop_front.2 := by
  obtain ⟨hsort, hcomm, hlast⟩ := hwf
  cases hb : b.buffer with
  | nil =>
    have hpop : b.pop_front.2 = b := by
      unfold Buffer.pop_front
      rw [hb]
    rw [hpop]
    exact ⟨hsort, hcomm, hlast⟩
  | cons x rest =>
    have hpop : b.pop_front.2 = { b with buffer := rest } := by
      unfold Buffer.pop_front
      rw [hb]
    rw [hpop]
    refine ⟨?_, ?_, ?_⟩
    · rw [hb] at hsort
      exact (List.pairwise_cons.mp hsort).2
    · intro t ht
      exact hcomm t (by rw [hb]; exact List.mem_cons_of_mem _ ht)
    · intro t ht
      exact hlast t (by rw [hb]; exact List.mem_cons_of_mem _ ht)

theorem dropBeforeList_suffix [Timestamped T] (ts : Nat) :
    ∀ l : List T, ∃ pre, l = pre ++ (dropBeforeList ts l).2 := by
  intro l
  induction l with
  | nil => exact ⟨[], rfl⟩
  | cons x rest ih =>
    by_cases hle : ts ≤ timestamp x
    · exact ⟨[], by simp [dropBeforeList, hle]⟩
    · obtain ⟨pre, hpre⟩ := ih
      refine ⟨x :: pre, ?_⟩
      simp only [dropBeforeList, if_neg hle]
      simpa using hpre

theorem drop_before_BufferWF [Timestamped T] (commit : Option Nat) (b : Buffer T)
    (ts : Nat) (hwf : BufferWF commit b) : BufferWF commit (b.drop_before ts).2 := by
  obtain ⟨hsort, hcomm, hlast⟩ := hwf
  obtain ⟨pre, hpre⟩ := dropBeforeList_suffix ts b.buffer
  have hsub : (dropBeforeList ts b.buffer).2.Sublist b.buffer := by
    conv_rhs => rw [hpre]
    exact List.sublist_append_right _ _
  unfold Buffer.drop_before
  exact ⟨hsort.sublist hsub, fun t ht => hcomm t (hsub.mem ht),
    fun t ht => hlast t (hsub.mem ht)⟩

theorem try_push_res_BufferWF [Timestamped T] (b : Buffer T) (item : T)
    (b2 : Buffer T) (hwf : BufferWF none b)
    (h : b.try_push_res item = Except.ok b2) : BufferWF none b2 := by
  obtain ⟨hbuf, hlast2, hgt⟩ := try_push_res_ok b item b2 h
  obtain ⟨hsort, _, hlast⟩ := hwf
  have hballlt : ∀ x ∈ b.buffer, timestamp x < timestamp item := by
    intro x hx
    have := hlast x hx
    cases hl : b.last_ts with
    | none =>
      rw [hl] at this
      exact absurd this not_false
    | some l =>
      rw [hl] at this
      simp only [leOfLast] at this
      have := hgt l hl
      omega
  refine ⟨?_, ?_, ?_⟩
  · rw [hbuf, List.pairwise_append]
    refine ⟨hsort, by simp, ?_⟩
    intro x hx y hy
    rw [List.mem_singleton.mp hy]
    exact hballlt x hx
  · intro t _
    simp [commitLt]
  · intro t ht
    rw [hbuf] at ht
    rw [hlast2]
    simp only [leOfLast]
    rcases List.mem_append.mp ht with ht2 | ht2
    · exact le_of_lt (hballlt t ht2)
    · rw [List.mem_singleton.mp ht2]

theorem runBufTrace_spec [Timestamped T] :
    ∀ (ops : List (BufOp T)) (b : Buffer T), BufferWF none b →
      BufferWF none (runBufTrace ops b).1 ∧
      (∀ x ∈ (runBufTrace ops b).2, ∀ l, b.last_ts = some l → l < x) ∧
      List.Pairwise (fun a c : Nat => a < c) (runBufTrace ops b).2 ∧
      (runBufTrace ops b).1.last_ts = ((runBufTrace ops b).2.getLast?).or b.last_ts := by
  intro ops
  induction ops with
  | nil =>
    intro b hwf
    exact ⟨hwf, by simp [runBufTrace], by simp [runBufTrace], by simp [runBufTrace]⟩
  | cons op rest ih =>
    intro b hwf
    cases op with
    | pop =>
      have hrun : runBufTrace (BufOp.pop :: rest) b = runBufTrace rest b.pop_front.2 := rfl
      rw [hrun]
      have hwf2 := pop_front_BufferWF none b hwf
      obtain ⟨ih1, ih2, ih3, ih4⟩ := ih b.pop_front.2 hwf2
      have hlasteq : b.pop_front.2.last_ts = b.last_ts := by
        unfold Buffer.pop_front
        split <;> rfl
      refine ⟨ih1, ?_, ih3, ?_⟩
      · intro x hx l hl
        exact ih2 x hx l (by rw [hlasteq]; exact hl)
      · rw [ih4, hlasteq]
    | dropBefore ts =>
      have hrun : runBufTrace (BufOp.dropBefore ts :: rest) b =
          runBufTrace rest (b.drop_before ts).2 := rfl
      rw [hrun]
      have hwf2 := drop_before_BufferWF none b ts hwf
      obtain ⟨ih1, ih2, ih3, ih4⟩ := ih (b.drop_before ts).2 hwf2
      have hlasteq : (b.drop_before ts).2.last_ts = b.last_ts := rfl
      refine ⟨ih1, ?_, ih3, ?_⟩
      · intro x hx l hl
        exact ih2 x hx l (by rw [hlasteq]; exact hl)
      · rw [ih4, hlasteq]
    | push item =>
      cases hp : b.try_push_res item with
      | error it2 =>
        have hrun : runBufTrace (BufOp.push item :: rest) b = runBufTrace rest b := by
          have heq : runBufTrace (BufOp.push item :: rest) b =
              match b.try_push_res item with
              | Except.ok b2 => ((runBufTrace rest b2).1,
                  timestamp item :: (runBufTrace rest b2).2)
              | Except.error _ => runBufTrace rest b := rfl
          rw [heq, hp]
        rw [hrun]
        exact ih b hwf
      | ok b2 =>
        have hrun : runBufTrace (BufOp.push item :: rest) b =
            ((runBufTrace rest b2).1, timestamp item :: (runBufTrace rest b2).2) := by
          have heq : runBufTrace (BufOp.push item :: rest) b =
              match b.try_push_res item with
              | Except.ok b3 => ((runBufTrace rest b3).1,
                  timestamp item :: (runBufTrace rest b3).2)
              | Except.error _ => runBufTrace rest b := rfl
          rw [heq, hp]
        rw [hrun]
        obtain ⟨hbuf2, hlast2, hgt⟩ := try_push_res_ok b item b2 hp
        have hwf2 := try_push_res_BufferWF b item b2 hwf hp
        obtain ⟨ih1, ih2, ih3, ih4⟩ := ih b2 hwf2
        have hadm_gt : ∀ x ∈ (runBufTrace rest b2).2, timestamp item < x := by
          intro x hx
          exact ih2 x hx (timestamp item) hlast2
        refine ⟨ih1, ?_, ?_, ?_⟩
        · intro x hx l hl
          rcases List.mem_cons.mp hx with rfl | hx2
          · exact hgt l hl
          · have := hadm_gt x hx2
            have := hgt l hl
            omega
        · rw [List.pairwise_cons]
          exact ⟨hadm_gt, ih3⟩
        · rw [getLast_cons_or, ih4, hlast2]
          cases hg : (runBufTrace rest b2).2.getLast? with
          | none => rfl
          | some y => rfl

theorem runBufTrace_append [Timestamped T] (l1 l2 : List (BufOp T)) :
    ∀ b : Buffer T, runBufTrace (l1 ++ l2) b =
      ((runBufTrace l2 (runBufTrace l1 b).1).1,
       (runBufTrace l1 b).2 ++ (runBufTrace l2 (runBufTrace l1 b).1).2) := by
  induction l1 with
  | nil =>
    intro b
    simp [runBufTrace]
  | cons op rest ih =>
    intro b
    cases op with
    | pop =>
      have h1 : runBufTrace ((BufOp.pop :: rest) ++ l2) b =
          runBufTrace (rest ++ l2) b.pop_front.2 := rfl
      have h2 : runBufTrace (BufOp.pop :: rest) b = runBufTrace rest b.pop_front.2 := rfl
      rw [h1, h2, ih]
    | dropBefore ts =>
      have h1 : runBufTrace ((BufOp.dropBefore ts :: rest) ++ l2) b =
          runBufTrace (rest ++ l2) (b.drop_before ts).2 := rfl
      have h2 : runBufTrace (BufOp.dropBefore ts :: rest) b =
          runBufTrace rest (b.drop_before ts).2 := rfl
      rw [h1, h2, ih]
    | push item =>
      cases hp : b.try_push_res item with
      | error it2 =>
        have h1 : runBufTrace ((BufOp.push item :: rest) ++ l2) b =
            match b.try_push_res item with
            | Except.ok b3 => ((runBufTrace (rest ++ l2) b3).1,
                timestamp item :: (runBufTrace (rest ++ l2) b3).2)
            | Except.error _ => runBufTrace (rest ++ l2) b := rfl
        have h2 : runBufTrace (BufOp.push item :: rest) b =
            match b.try_push_res item with
            | Except.ok b3 => ((runBufTrace rest b3).1,
                timestamp item :: (runBufTrace rest b3).2)
            | Except.error _ => runBufTrace rest b := rfl
        rw [h1, h2, hp, ih]
      | ok b2 =>
        have h1 : runBufTrace ((BufOp.push item :: rest) ++ l2) b =
            match b.try_push_res item with
            | Except.ok b3 => ((runBufTrace (rest ++ l2) b3).1,
                timestamp item :: (runBufTrace (rest ++ l2) b3).2)
            | Except.error _ => runBufTrace (rest ++ l2) b := rfl
        have h2 : runBufTrace (BufOp.push item :: rest) b =
            match b.try_push_res item with
            | Except.ok b3 => ((runBufTrace rest b3).1,
                timestamp item :: (runBufTrace rest b3).2)
            | Except.error _ => runBufTrace rest b := rfl
        rw [h1, h2, hp]
        have hib := ih b2
        simp [hib]


/-- Claim C8: starting from an empty buffer, under any interleaving of
`try_push`, `pop_front` and `drop_before`, the buffered timestamps are
strictly increasing front to back, `last_ts` equals the maximum timestamp
ever admitted (unset only when nothing was admitted), it never decreases
across further operations and persists across pops, and any item whose
timestamp is at most some previously admitted timestamp is rejected. -/
theorem C8_buffer_trace [Timestamped T] (ops : List (BufOp T)) :
    List.Pairwise (fun a c => timestamp a < timestamp c)
      (runBufTrace ops (Buffer.mk [] none)).1.buffer ∧
    ((runBufTrace ops (Buffer.mk [] none)).2 = [] →
      (runBufTrace ops (Buffer.mk [] none)).1.last_ts = none) ∧
    (∀ m, (runBufTrace ops (Buffer.mk [] none)).1.last_ts = some m →
      m ∈ (runBufTrace ops (Buffer.mk [] none)).2 ∧
      ∀ x ∈ (runBufTrace ops (Buffer.mk [] none)).2, x ≤ m) ∧
    (∀ item : T,
      (∃ x ∈ (runBufTrace ops (Buffer.mk [] none)).2, timestamp item ≤ x) →
      (runBufTrace ops (Buffer.mk [] none)).1.try_push_res item =
        Except.error item) ∧
    (∀ more : List (BufOp T), ∀ m,
      (runBufTrace ops (Buffer.mk [] none)).1.last_ts = some m →
      ∃ m2, (runBufTrace (ops ++ more) (Buffer.mk [] none)).1.last_ts = some m2 ∧
        m ≤ m2) := by
  have hwf0 : BufferWF (T := T) none (Buffer.mk [] none) := by
    refine ⟨by simp, by simp, by simp⟩
  obtain ⟨hwf, hadm, hpw, hlast⟩ := runBufTrace_spec ops (Buffer.mk [] none) hwf0
  have hlast2 : (runBufTrace ops (Buffer.mk [] none)).1.last_ts =
      (runBufTrace ops (Buffer.mk [] none)).2.getLast? := by
    rw [hlast]
    cases (runBufTrace ops (Buffer.mk [] none)).2.getLast? <;> rfl
  have hmax : ∀ m, (runBufTrace ops (Buffer.mk [] none)).1.last_ts = some m →
      m ∈ (runBufTrace ops (Buffer.mk [] none)).2 ∧
      ∀ x ∈ (runBufTrace ops (Buffer.mk [] none)).2, x ≤ m := by
    intro m hm
    rw [hlast2] at hm
    exact ⟨getLast_mem_nat _ m hm, fun x hx => pairwise_lt_getLast _ hpw x hx m hm⟩
  refine ⟨hwf.1, ?_, hmax, ?_, ?_⟩
  · intro hnil
    rw [hlast2, hnil]
    rfl
  · intro item ⟨x, hx, hxle⟩
    have hne : (runBufTrace ops (Buffer.mk [] none)).2 ≠ [] := List.ne_nil_of_mem hx
    cases hg : (runBufTrace ops (Buffer.mk [] none)).2.getLast? with
    | none =>
      rw [List.getLast?_eq_none_iff] at hg
      exact absurd hg hne
    | some m =>
      have hlg : (runBufTrace ops (Buffer.mk [] none)).1.last_ts = some m := by
        rw [hlast2, hg]
      have hxm : x ≤ m := (hmax m hlg).2 x hx
      unfold Buffer.try_push_res
      rw [hlg]
      dsimp only
      rw [if_pos (by omega : timestamp item ≤ m)]
  · intro more m hm
    rw [runBufTrace_append]
    obtain ⟨hwfm, hadmm, hpwm, hlastm⟩ :=
      runBufTrace_spec more (runBufTrace ops (Buffer.mk [] none)).1 hwf
    rw [hlastm, hm]
    cases hg : (runBufTrace more (runBufTrace ops (Buffer.mk [] none)).1).2.getLast? with
    | none => exact ⟨m, rfl, le_refl m⟩
    | some y =>
      have hymem := getLast_mem_nat _ y hg
      have := hadmm y hymem m hm
      exact ⟨y, rfl, le_of_lt this⟩

/-- Witness for C8_buffer_trace: after admitting 5, popping it, a later 4
is still rejected and `last_ts` still records the maximum 5. -/
theorem C8_buffer_trace_witness :
    ((5 : Nat) ∈ (runBufTrace [BufOp.push (5 : Nat), BufOp.pop, BufOp.push 4]
        (Buffer.mk [] none)).2 ∧
      ∀ x ∈ (runBufTrace [BufOp.push (5 : Nat), BufOp.pop, BufOp.push 4]
        (Buffer.mk [] none)).2, x ≤ 5) ∧
    (runBufTrace [BufOp.push (5 : Nat), BufOp.pop, BufOp.push 4]
      (Buffer.mk [] none)).1.try_push_res 4 = Except.error 4 :=
  ⟨(C8_buffer_trace [BufOp.push (5 : Nat), BufOp.pop, BufOp.push 4]).2.2.1 5 rfl,
   (C8_buffer_trace [BufOp.push (5 : Nat), BufOp.pop, BufOp.push 4]).2.2.2.1 4
     ⟨5, by decide, by decide⟩⟩

end MSS
